import Mathlib

/-!
# Verification of the eden tree-manifest and segmented-changelog cores

This file gives a shallow embedding of the core algorithms of the repository:

* the segmented changelog updater
  (`src/eden/mononoke/segmented_changelog/src/update.rs`): vertex assignment
  (`assign_ids`), the incremental build (`prepare_incremental_iddag_update`,
  `build_incremental`) and its invariant checks;
* the tree manifest (`src/lib/manifest/src/tree/mod.rs`): `insert`, `get`,
  `flush`, `finalize` and `compat_subtree_diff`.

Pure functions are translated directly; the stateful pieces thread their
state (the blob store, the idmap) explicitly.  Loops whose termination
depends on the finiteness of the commit graph are written with an explicit
fuel parameter; `none` means the fuel ran out (a model artifact — the Rust
loops always terminate on finite graphs), `some` carries the faithful
result.  External collaborators whose sources are not part of the
repository snapshot (the `dag` crate's `InProcessIdDag`, the `idmap`
module, the manifest's `link`/`store` helper modules, the `crypto` crate's
SHA-1) are modelled from the specification, as marked on each definition.
-/

namespace SegmentedChangelog

/-- Modelled from the spec: the `idmap` module is not under `src/`.
`MemIdMap` is an in-memory changeset-to-vertex bijection that remembers
insertion order (`insert`, `len`, `find_vertex`, iteration).  Changeset
ids (opaque 32-byte hashes) and vertices (`dag::Id`, 64-bit) are both
modelled as naturals; entries are `(vertex, changeset)` pairs. -/
abbrev MemIdMap := List (Nat × Nat)

/-- Modelled from the spec: `MemIdMap::find_vertex` — the vertex assigned
to a changeset, if any. -/
def mem_find_vertex (m : MemIdMap) (cs : Nat) : Option Nat :=
  (m.find? (fun e => e.2 == cs)).map (·.1)

/-- The `StartState` of `update.rs`: the prefetched parents and the
pre-existing idmap assignments for the subgraph being extended. -/
structure StartState where
  parents : List (Nat × List Nat)
  assignments : MemIdMap
  deriving Repr, DecidableEq

/-- Lookup (`HashMap::get`) on `StartState.parents` (first binding wins, matching
the insert-shadowing representation used below). -/
def lookup_parents (s : StartState) (c : Nat) : Option (List Nat) :=
  (s.parents.find? (fun e => e.1 == c)).map (·.2)

/-- Translation of `StartState::get_parents_if_not_assigned`: `none` signals the
changeset is already assigned. -/
def get_parents_if_not_assigned (s : StartState) (c : Nat) :
    Option (List Nat) :=
  if (mem_find_vertex s.assignments c).isSome then none
  else lookup_parents s c

/-- The two-phase DFS stack tags of `assign_ids`. -/
inductive Todo where
  | visit (c : Nat)
  | assign (c : Nat)
  deriving Repr, DecidableEq

/-- The parent-pushing step of `assign_ids`: iterate the parents in
reverse, push a `visit` for each one not yet seen.  Returns the newly
pushed items (topmost first) and the grown `seen` set; the caller places
them on top of `assign c :: stack`, exactly as the Rust `for` loop pushes
them above the just-pushed `Assign`. -/
def pushParents (ps : List Nat) (seen : List Nat) :
    List Todo × List Nat :=
  ps.reverse.foldl
    (fun acc p => if p ∈ acc.2 then acc else (Todo.visit p :: acc.1, p :: acc.2))
    ([], seen)

/-- The `while let Some(todo) = todo_stack.pop()` loop of `assign_ids`.
The list head is the top of the stack.  Returns the accumulated
`MemIdMap`, the final `seen` set and the leftover fuel. -/
def assign_ids_loop (st : StartState) (low : Nat) :
    Nat → List Todo → List Nat → MemIdMap →
    Option (MemIdMap × List Nat × Nat)
  | fuel, [], seen, mem => some (mem, seen, fuel)
  | 0, _ :: _, _, _ => none
  | fuel+1, Todo.visit c :: stack, seen, mem =>
      match get_parents_if_not_assigned st c with
      | none => assign_ids_loop st low fuel stack seen mem
      | some ps =>
          let pushed := pushParents ps seen
          assign_ids_loop st low fuel (pushed.1 ++ Todo.assign c :: stack) pushed.2 mem
  | fuel+1, Todo.assign c :: stack, seen, mem =>
      assign_ids_loop st low fuel stack seen (mem ++ [(low + mem.length, c)])

/-- Translation of `assign_ids` from `update.rs`: walk the ancestors of `head` described
by `start_state` and assign `low_vertex + len` to each newly assigned
changeset, via the explicit `{Visit, Assign}` stack. -/
def assign_ids (fuel : Nat) (st : StartState) (head : Nat) (low : Nat) :
    Option MemIdMap :=
  (assign_ids_loop st low fuel [Todo.visit head] [head] []).map (·.1)

/-- Modelled from the spec: the `dag` crate's `InProcessIdDag` is not part
of the snapshot.  The claims only consult `next_free_id(0, MASTER)` and
`contains_id`, so the segment structure is abstracted to the next free
vertex of the MASTER group (ids below it are covered by segments). -/
structure InProcessIdDag where
  next_free_id : Nat
  deriving Repr, DecidableEq

/-- Modelled from the spec: `IdDag::contains_id` — whether a vertex is
covered by the built segments. -/
def InProcessIdDag.contains_id (d : InProcessIdDag) (v : Nat) : Bool :=
  v < d.next_free_id

/-- Modelled from the spec: `IdDag::build_segments_volatile` builds the
segments up to `head`, after which every id up to `head` is covered and
`next_free_id` is at least `head + 1`. -/
def InProcessIdDag.build_segments_volatile (d : InProcessIdDag) (head : Nat) :
    InProcessIdDag :=
  ⟨max d.next_free_id (head + 1)⟩

/-- Modelled from the spec: the persistent `IdMap` scoped by
`(repo_id, idmap_version)`, with `insert_many`, `find_vertex` and
`get_last_entry`. -/
abbrev IdMapStore := List (Nat × Nat)

/-- Modelled from the spec: `IdMap::find_vertex`. -/
def idmap_find_vertex (m : IdMapStore) (cs : Nat) : Option Nat :=
  (m.find? (fun e => e.2 == cs)).map (·.1)

/-- Modelled from the spec: `IdMap::insert_many` — one atomic batch. -/
def idmap_insert_many (m : IdMapStore) (entries : MemIdMap) : IdMapStore :=
  m ++ entries

/-- One step of the `get_last_entry` fold: keep the entry with the larger
vertex. -/
def last_entry_step (acc : Option (Nat × Nat)) (e : Nat × Nat) :
    Option (Nat × Nat) :=
  match acc with
  | none => some e
  | some b => if b.1 < e.1 then some e else some b

/-- Modelled from the spec: `IdMap::get_last_entry` — the entry with the
largest vertex, if any. -/
def idmap_get_last_entry (m : IdMapStore) : Option (Nat × Nat) :=
  m.foldl last_entry_step none

/-- Computation of `id_map_next_id` as done in `prepare_incremental_iddag_update`:
`get_last_entry` plus one, or `Group::MASTER.min_id() = 0`. -/
def id_map_next_id (m : IdMapStore) : Nat :=
  match idmap_get_last_entry m with
  | none => 0
  | some e => e.1 + 1

/-- Parent fetching (`ChangesetFetcher::get_parents`), modelled as a total function (the
claims never exercise fetcher failures). -/
abbrev ChangesetFetcher := Nat → List Nat

/-- The errors `prepare_incremental_iddag_update` can bail with. -/
inductive UpdateError where
  /-- `id_dag_next_id > id_map_next_id; unexpected state, re-seed the repository` -/
  | reseed
  /-- `error building IdMap; failed to assign head` -/
  | headNotAssigned
  deriving Repr, DecidableEq

/-- The `FuturesOrdered` BFS of `prepare_incremental_iddag_update`:
fetch `(parents, vertex)` for each queued changeset in enqueue order,
record them in the `StartState`, and enqueue unvisited parents unless the
changeset's vertex is already covered by the iddag. -/
def bfs_loop (fetcher : ChangesetFetcher) (idmap : IdMapStore) (iddag : InProcessIdDag) :
    Nat → List Nat → List Nat → StartState → Option StartState
  | _, [], _, st => some st
  | 0, _ :: _, _, _ => none
  | fuel+1, c :: queue, visited, st =>
      let parents := fetcher c
      let vertex := idmap_find_vertex idmap c
      let st' : StartState :=
        { parents := (c, parents) :: st.parents
          assignments :=
            match vertex with
            | some v => st.assignments ++ [(v, c)]
            | none => st.assignments }
      let missing : Bool :=
        match vertex with
        | some v => !(iddag.contains_id v)
        | none => true
      if missing then
        let enq :=
          parents.foldl
            (fun acc p => if p ∈ acc.2 then acc else (acc.1 ++ [p], p :: acc.2))
            (queue, visited)
        bfs_loop fetcher idmap iddag fuel enq.1 enq.2 st'
      else
        bfs_loop fetcher idmap iddag fuel queue visited st'

/-- The part of `prepare_incremental_iddag_update` after the
`id_dag_next_id`/`id_map_next_id` invariant check has passed: the BFS
prefetch, the early return when the idmap and iddag already contain the
head, and otherwise `assign_ids` plus `update_idmap`. -/
def prepare_main (fetcher : ChangesetFetcher)
    (iddag : InProcessIdDag) (idmap : IdMapStore) (head : Nat)
    (bfsFuel assignFuel : Nat) :
    Option (Except UpdateError (Nat × Option (StartState × MemIdMap) × IdMapStore)) :=
  let id_dag_next := iddag.next_free_id
  let id_map_next := id_map_next_id idmap
  match bfs_loop fetcher idmap iddag bfsFuel [head] [] ⟨[], []⟩ with
  | none => none
  | some st =>
    match (if id_dag_next = id_map_next then mem_find_vertex st.assignments head
           else none) with
    | some hv => some (Except.ok (hv, none, idmap))
    | none =>
      match assign_ids assignFuel st head id_map_next with
      | none => none
      | some mem =>
        match mem_find_vertex mem head <|> mem_find_vertex st.assignments head with
        | none => some (Except.error UpdateError.headNotAssigned)
        | some hv => some (Except.ok (hv, some (st, mem), idmap_insert_many idmap mem))

/-- Translation of `prepare_incremental_iddag_update` from `update.rs`.  Returns the head
vertex, the optional `(StartState, MemIdMap)` iddag update (none on the
early-return path), and the idmap after the `update_idmap` batch insert.
Bails with the re-seed directive when `id_dag_next_id > id_map_next_id`;
when `id_dag_next_id < id_map_next_id` the source logs a warning (not
modelled) and continues with `prepare_main`. -/
def prepare_incremental_iddag_update (fetcher : ChangesetFetcher)
    (iddag : InProcessIdDag) (idmap : IdMapStore) (head : Nat)
    (bfsFuel assignFuel : Nat) :
    Option (Except UpdateError (Nat × Option (StartState × MemIdMap) × IdMapStore)) :=
  if iddag.next_free_id > id_map_next_id idmap then
    some (Except.error UpdateError.reseed)
  else
    prepare_main fetcher iddag idmap head bfsFuel assignFuel

/-- The `Dag` structure: the in-process iddag plus the idmap. -/
structure Dag where
  iddag : InProcessIdDag
  idmap : IdMapStore
  deriving Repr, DecidableEq

/-- Translation of `update_iddag`: build segments up to the head vertex (parents are
resolved from the start state; segment internals are abstracted in
`InProcessIdDag`). -/
def update_iddag (iddag : InProcessIdDag) (head_vertex : Nat) : InProcessIdDag :=
  iddag.build_segments_volatile head_vertex

/-- Translation of `build_incremental` from `update.rs`: prepare the incremental update
and apply `update_iddag` unless the early-return path was taken. -/
def build_incremental (fetcher : ChangesetFetcher) (dag : Dag) (head : Nat)
    (bfsFuel assignFuel : Nat) : Option (Except UpdateError (Nat × Dag)) :=
  match prepare_incremental_iddag_update fetcher dag.iddag dag.idmap head bfsFuel assignFuel with
  | none => none
  | some (Except.error e) => some (Except.error e)
  | some (Except.ok (hv, upd, idmap')) =>
      let iddag' :=
        match upd with
        | none => dag.iddag
        | some _ => update_iddag dag.iddag hv
      some (Except.ok (hv, ⟨iddag', idmap'⟩))


/-! ### Lemmas about the `assign_ids` stack machine -/

/-- Running the loop on a concatenated stack runs the two parts in
sequence: the bottom part is inert until the top part is exhausted. -/
theorem assign_ids_loop_append (st : StartState) (low : Nat) :
    ∀ (fuel : Nat) (s t : List Todo) (seen : List Nat) (mem : MemIdMap),
    assign_ids_loop st low fuel (s ++ t) seen mem =
      (assign_ids_loop st low fuel s seen mem).bind
        (fun r => assign_ids_loop st low r.2.2 t r.2.1 r.1) := by
  intro fuel
  induction fuel with
  | zero =>
    intro s t seen mem
    cases s with
    | nil => simp [assign_ids_loop]
    | cons td s1 => cases td <;> simp [assign_ids_loop]
  | succ f ih =>
    intro s t seen mem
    cases s with
    | nil => simp [assign_ids_loop]
    | cons td s1 =>
      cases td with
      | visit c =>
        cases h : get_parents_if_not_assigned st c with
        | none =>
          simp only [List.cons_append, assign_ids_loop, h]
          exact ih s1 t seen mem
        | some ps =>
          simp only [List.cons_append, assign_ids_loop, h]
          have h2 : (pushParents ps seen).1 ++ Todo.assign c :: (s1 ++ t) =
              ((pushParents ps seen).1 ++ Todo.assign c :: s1) ++ t := by
            simp
          rw [List.append_eq, h2]
          exact ih _ t _ mem
      | assign c =>
        simp only [List.cons_append, assign_ids_loop]
        exact ih s1 t seen _

/-- The loop only appends to the accumulated idmap. -/
theorem assign_ids_loop_mem_mono (st : StartState) (low : Nat) :
    ∀ (fuel : Nat) (stack : List Todo) (seen : List Nat) (mem mem' : MemIdMap)
      (seen' : List Nat) (fuel' : Nat),
    assign_ids_loop st low fuel stack seen mem = some (mem', seen', fuel') →
    ∃ d, mem' = mem ++ d := by
  intro fuel
  induction fuel with
  | zero =>
    intro stack seen mem mem' seen' fuel' h
    cases stack with
    | nil =>
      simp [assign_ids_loop] at h
      exact ⟨[], by simp [h.1]⟩
    | cons td s1 => cases td <;> simp [assign_ids_loop] at h
  | succ f ih =>
    intro stack seen mem mem' seen' fuel' h
    cases stack with
    | nil =>
      simp [assign_ids_loop] at h
      exact ⟨[], by simp [h.1]⟩
    | cons td s1 =>
      cases td with
      | visit c =>
        cases hg : get_parents_if_not_assigned st c with
        | none =>
          simp only [assign_ids_loop, hg] at h
          exact ih _ _ _ _ _ _ h
        | some ps =>
          simp only [assign_ids_loop, hg] at h
          exact ih _ _ _ _ _ _ h
      | assign c =>
        simp only [assign_ids_loop] at h
        obtain ⟨d, hd⟩ := ih _ _ _ _ _ _ h
        exact ⟨(low + mem.length, c) :: d, by simp [hd]⟩

/-- Invariant of the parent-pushing fold: the seen set only grows, and
every pushed item is a visit of a changeset that was not already seen. -/
theorem pushParents_fold_inv (seen0 : List Nat) :
    ∀ (l : List Nat) (acc : List Todo × List Nat),
    seen0 ⊆ acc.2 →
    (∀ td ∈ acc.1, ∃ p, td = Todo.visit p ∧ p ∉ seen0) →
    seen0 ⊆ (l.foldl
        (fun acc p => if p ∈ acc.2 then acc else (Todo.visit p :: acc.1, p :: acc.2))
        acc).2 ∧
      ∀ td ∈ (l.foldl
        (fun acc p => if p ∈ acc.2 then acc else (Todo.visit p :: acc.1, p :: acc.2))
        acc).1, ∃ p, td = Todo.visit p ∧ p ∉ seen0 := by
  intro l
  induction l with
  | nil => intro acc h1 h2; exact ⟨h1, h2⟩
  | cons p l ih =>
    intro acc h1 h2
    simp only [List.foldl_cons]
    by_cases hp : p ∈ acc.2
    · rw [if_pos hp]; exact ih acc h1 h2
    · rw [if_neg hp]
      refine ih _ (fun x hx => List.mem_cons_of_mem _ (h1 hx)) ?_
      intro td htd
      rcases List.mem_cons.1 htd with h | h
      · exact ⟨p, h, fun hin => hp (h1 hin)⟩
      · exact h2 td h

/-- Seen-set monotonicity for `pushParents`. -/
theorem pushParents_seen_mono (ps seen : List Nat) :
    seen ⊆ (pushParents ps seen).2 :=
  (pushParents_fold_inv seen ps.reverse ([], seen) (fun _ hx => hx) (by simp)).1

/-- Every item pushed by `pushParents` visits a previously unseen changeset. -/
theorem pushParents_stack_new (ps seen : List Nat) :
    ∀ td ∈ (pushParents ps seen).1, ∃ p, td = Todo.visit p ∧ p ∉ seen :=
  (pushParents_fold_inv seen ps.reverse ([], seen) (fun _ hx => hx) (by simp)).2

/-- A changeset that is already seen, occurs nowhere in the stack, and is
not yet assigned, is never assigned by the loop (and stays seen). -/
theorem assign_ids_loop_avoid (st : StartState) (low : Nat) (c0 : Nat) :
    ∀ (fuel : Nat) (stack : List Todo) (seen : List Nat) (mem mem' : MemIdMap)
      (seen' : List Nat) (fuel' : Nat),
    assign_ids_loop st low fuel stack seen mem = some (mem', seen', fuel') →
    c0 ∈ seen →
    (∀ td ∈ stack, td ≠ Todo.visit c0 ∧ td ≠ Todo.assign c0) →
    c0 ∉ mem.map Prod.snd →
    c0 ∉ mem'.map Prod.snd ∧ c0 ∈ seen' := by
  intro fuel
  induction fuel with
  | zero =>
    intro stack seen mem mem' seen' fuel' h hseen _ hmem
    cases stack with
    | nil =>
      simp [assign_ids_loop] at h
      exact ⟨h.1 ▸ hmem, h.2.1 ▸ hseen⟩
    | cons td s1 => cases td <;> simp [assign_ids_loop] at h
  | succ f ih =>
    intro stack seen mem mem' seen' fuel' h hseen hstack hmem
    cases stack with
    | nil =>
      simp [assign_ids_loop] at h
      exact ⟨h.1 ▸ hmem, h.2.1 ▸ hseen⟩
    | cons td s1 =>
      cases td with
      | visit c =>
        cases hg : get_parents_if_not_assigned st c with
        | none =>
          simp only [assign_ids_loop, hg] at h
          exact ih _ _ _ _ _ _ h hseen (fun td htd => hstack td (List.mem_cons_of_mem _ htd)) hmem
        | some ps =>
          simp only [assign_ids_loop, hg] at h
          refine ih _ _ _ _ _ _ h (pushParents_seen_mono ps seen hseen) ?_ hmem
          intro td htd
          rcases List.mem_append.1 htd with hin | hin
          · obtain ⟨p, rfl, hpn⟩ := pushParents_stack_new ps seen td hin
            constructor
            · intro hc; exact hpn (by cases hc; exact hseen)
            · intro hc; cases hc
          · rcases List.mem_cons.1 hin with hin | hin
            · subst hin
              have hne : c ≠ c0 := by
                intro hc; subst hc
                exact (hstack _ (List.mem_cons_self _ _)).1 rfl
              constructor
              · intro hc; cases hc
              · intro hc; cases hc; exact hne rfl
            · exact hstack td (List.mem_cons_of_mem _ hin)
      | assign c =>
        simp only [assign_ids_loop] at h
        have hne : c ≠ c0 := by
          intro hc; subst hc
          exact (hstack _ (List.mem_cons_self _ _)).2 rfl
        refine ih _ _ _ _ _ _ h hseen (fun td htd => hstack td (List.mem_cons_of_mem _ htd)) ?_
        simp only [List.map_append, List.map_cons, List.map_nil]
        intro hc
        rcases List.mem_append.1 hc with hc | hc
        · exact hmem hc
        · simp at hc; exact hne hc.symm

/-- The vertices accumulated by the loop form the contiguous range
starting at `low`. -/
theorem assign_ids_loop_vertices (st : StartState) (low : Nat) :
    ∀ (fuel : Nat) (stack : List Todo) (seen : List Nat) (mem mem' : MemIdMap)
      (seen' : List Nat) (fuel' : Nat),
    assign_ids_loop st low fuel stack seen mem = some (mem', seen', fuel') →
    mem.map Prod.fst = List.range' low mem.length →
    mem'.map Prod.fst = List.range' low mem'.length := by
  intro fuel
  induction fuel with
  | zero =>
    intro stack seen mem mem' seen' fuel' h hv
    cases stack with
    | nil => simp [assign_ids_loop] at h; exact h.1 ▸ hv
    | cons td s1 => cases td <;> simp [assign_ids_loop] at h
  | succ f ih =>
    intro stack seen mem mem' seen' fuel' h hv
    cases stack with
    | nil => simp [assign_ids_loop] at h; exact h.1 ▸ hv
    | cons td s1 =>
      cases td with
      | visit c =>
        cases hg : get_parents_if_not_assigned st c with
        | none =>
          simp only [assign_ids_loop, hg] at h
          exact ih _ _ _ _ _ _ h hv
        | some ps =>
          simp only [assign_ids_loop, hg] at h
          exact ih _ _ _ _ _ _ h hv
      | assign c =>
        simp only [assign_ids_loop] at h
        refine ih _ _ _ _ _ _ h ?_
        simp only [List.map_append, List.map_cons, List.map_nil, List.length_append,
          List.length_cons, List.length_nil]
        rw [hv, List.range'_1_concat]


/-- Find over an appended idmap: first map wins. -/
theorem mem_find_vertex_append (a b : MemIdMap) (c : Nat) :
    mem_find_vertex (a ++ b) c = (mem_find_vertex a c).or (mem_find_vertex b c) := by
  unfold mem_find_vertex
  rw [List.find?_append]
  cases a.find? (fun e => e.2 == c) <;> simp

/-- A changeset that occurs in no entry has no vertex. -/
theorem mem_find_vertex_none (m : MemIdMap) (c : Nat)
    (h : c ∉ m.map Prod.snd) : mem_find_vertex m c = none := by
  have hf : m.find? (fun e => e.2 == c) = none :=
    List.find?_eq_none.2 (fun e he hbe => h (List.mem_map.2 ⟨e, he, by simpa using hbe⟩))
  simp [mem_find_vertex, hf]

/-- Find in a singleton idmap. -/
theorem mem_find_vertex_singleton (v : Nat) (c : Nat) :
    mem_find_vertex [(v, c)] c = some v := by
  simp [mem_find_vertex, List.find?]

/-- Running the loop on a single `visit c` of an unassigned changeset with
known parents assigns `c` last: the result is the parents' sub-run
followed by the entry for `c` itself. -/
theorem assign_ids_loop_visit_decomp (st : StartState) (low : Nat)
    (f : Nat) (c : Nat) (ps : List Nat)
    (seen : List Nat) (mem m' : MemIdMap) (s' : List Nat) (f' : Nat)
    (hg : get_parents_if_not_assigned st c = some ps)
    (hcseen : c ∈ seen)
    (hcmem : c ∉ mem.map Prod.snd)
    (hrun : assign_ids_loop st low f [Todo.visit c] seen mem = some (m', s', f')) :
    ∃ ma, m' = ma ++ [(low + ma.length, c)] ∧ c ∉ ma.map Prod.snd ∧
      ∃ d, ma = mem ++ d := by
  cases f with
  | zero => simp [assign_ids_loop] at hrun
  | succ fn =>
    simp only [assign_ids_loop, hg] at hrun
    rw [assign_ids_loop_append] at hrun
    cases hA : assign_ids_loop st low fn (pushParents ps seen).1 (pushParents ps seen).2 mem with
    | none => rw [hA] at hrun; simp at hrun
    | some rA =>
      obtain ⟨ma, sa, fa⟩ := rA
      rw [hA] at hrun
      simp only [Option.some_bind] at hrun
      have havoid := (assign_ids_loop_avoid st low c fn (pushParents ps seen).1
        (pushParents ps seen).2 mem ma sa fa hA
        (pushParents_seen_mono ps seen hcseen)
        (fun td htd => by
          obtain ⟨p, rfl, hpn⟩ := pushParents_stack_new ps seen td htd
          exact ⟨fun hc => hpn (by cases hc; exact hcseen),
                 fun hc => by cases hc⟩)
        hcmem).1
      have hmono := assign_ids_loop_mem_mono st low fn _ _ mem ma sa fa hA
      cases fa with
      | zero => simp [assign_ids_loop] at hrun
      | succ ga =>
        simp only [assign_ids_loop] at hrun
        obtain ⟨hm, hs, hf⟩ := by
          have := hrun
          simpa using this
        exact ⟨ma, hm.symm, havoid, hmono⟩

/-- A head that is already assigned in the start state produces no new
assignments at all. -/
theorem assign_ids_of_assigned (fuel : Nat) (st : StartState) (head : Nat)
    (low : Nat) (mem : MemIdMap)
    (has : (mem_find_vertex st.assignments head).isSome)
    (hrun : assign_ids fuel st head low = some mem) : mem = [] := by
  unfold assign_ids at hrun
  cases fuel with
  | zero => simp [assign_ids_loop] at hrun
  | succ f =>
    have hg : get_parents_if_not_assigned st head = none := by
      simp [get_parents_if_not_assigned, has]
    simp only [assign_ids_loop, hg] at hrun
    simp [assign_ids_loop] at hrun
    exact hrun

/-- Unfolding one `visit` step of the loop when parents are returned. -/
theorem assign_ids_step (st : StartState) (low : Nat) (f : Nat) (c : Nat)
    (ps : List Nat) (stack : List Todo) (seen : List Nat) (mem : MemIdMap)
    (hg : get_parents_if_not_assigned st c = some ps) :
    assign_ids_loop st low (f+1) (Todo.visit c :: stack) seen mem =
      assign_ids_loop st low f ((pushParents ps seen).1 ++ Todo.assign c :: stack)
        (pushParents ps seen).2 mem := by
  simp only [assign_ids_loop, hg]

/-- C10: for every start state and `low_vertex`, if the head is already
assigned in `start_state.assignments` then `assign_ids` returns an empty
`MemIdMap`, assigning no new vertices at all. -/
theorem claim_C10_assign_ids_noop_on_assigned_head (fuel : Nat) (st : StartState)
    (head : Nat) (low : Nat) (v : Nat)
    (has : mem_find_vertex st.assignments head = some v) (hfuel : 1 ≤ fuel) :
    assign_ids fuel st head low = some [] := by
  cases fuel with
  | zero => omega
  | succ f =>
    have hg : get_parents_if_not_assigned st head = none := by
      simp [get_parents_if_not_assigned, has]
    unfold assign_ids
    simp [assign_ids_loop, hg]

/-- Witness for C10: a concrete start state with the head pre-assigned. -/
theorem claim_C10_witness :
    assign_ids 1 ⟨[], [(5, 7)]⟩ 7 0 = some [] :=
  claim_C10_assign_ids_noop_on_assigned_head 1 ⟨[], [(5, 7)]⟩ 7 0 5 (by decide) (by decide)

/-- The concrete start state of spec scenario 5: commits A = 1 (no
parents), B = 2 (parent A), C = 3 (parents [B, A]); nothing assigned. -/
def c1TriangleState : StartState :=
  ⟨[(3, [2, 1]), (2, [1]), (1, [])], []⟩

/-- C1 counterexample: on the A/B/C triangle with head C and
`low_vertex = 0`, the code assigns B ↦ 0, A ↦ 1, C ↦ 2 — not the claimed
A ↦ 0, B ↦ 1 — and the vertex of p1 = B is 0, which is not strictly
greater than the vertex 1 of p2 = A. -/
theorem claim_C1_counterexample :
    assign_ids 10 c1TriangleState 3 0 = some [(0, 2), (1, 1), (2, 3)] ∧
    mem_find_vertex [((0 : Nat), (2 : Nat)), (1, 1), (2, 3)] 2 = some 0 ∧
    mem_find_vertex [((0 : Nat), (2 : Nat)), (1, 1), (2, 3)] 1 = some 1 ∧
    mem_find_vertex [((0 : Nat), (2 : Nat)), (1, 1), (2, 3)] 3 = some 2 ∧
    ¬ (0 : Nat) > 1 := by
  decide

/-- C1 (amended): restricted to the head commit.  When the head has
exactly two distinct unassigned parents `[p1, p2]`, each with parent data
in the start state, `assign_ids` gives `p1` a strictly SMALLER vertex than
`p2` (the code visits `p1` first and assigns post-order), and both are
strictly below the head's vertex.  On the A/B/C triangle this yields
`vertex(B) = 0 < vertex(A) = 1 < vertex(C) = 2`. -/
theorem claim_C1_amended (fuel : Nat) (st : StartState) (head p1 p2 : Nat)
    (low : Nat) (mem : MemIdMap)
    (hpar : lookup_parents st head = some [p1, p2])
    (hhead : mem_find_vertex st.assignments head = none)
    (h1 : mem_find_vertex st.assignments p1 = none)
    (h2 : mem_find_vertex st.assignments p2 = none)
    (h1p : (lookup_parents st p1).isSome)
    (h2p : (lookup_parents st p2).isSome)
    (h12 : p1 ≠ p2) (h1h : p1 ≠ head) (h2h : p2 ≠ head)
    (hrun : assign_ids fuel st head low = some mem) :
    ∃ v1 v2 vh, mem_find_vertex mem p1 = some v1 ∧
      mem_find_vertex mem p2 = some v2 ∧ mem_find_vertex mem head = some vh ∧
      v1 < v2 ∧ v2 < vh := by
  unfold assign_ids at hrun
  cases fuel with
  | zero => simp [assign_ids_loop] at hrun
  | succ f =>
    have hg : get_parents_if_not_assigned st head = some [p1, p2] := by
      simp [get_parents_if_not_assigned, hhead, hpar]
    have hpush : pushParents [p1, p2] [head] =
        ([Todo.visit p1, Todo.visit p2], [p1, p2, head]) := by
      simp [pushParents, h2h, h1h, h12]
    rw [assign_ids_step st low f head [p1, p2] [] [head] [] hg, hpush] at hrun
    dsimp only at hrun
    have hsh : ([Todo.visit p1, Todo.visit p2] ++ Todo.assign head :: ([] : List Todo)) =
        [Todo.visit p1] ++ ([Todo.visit p2] ++ [Todo.assign head]) := rfl
    rw [hsh, assign_ids_loop_append] at hrun
    cases hseg1 : assign_ids_loop st low f [Todo.visit p1] [p1, p2, head] [] with
    | none => rw [hseg1] at hrun; simp at hrun
    | some r1 =>
      obtain ⟨m1, s1, f1⟩ := r1
      rw [hseg1] at hrun
      simp only [Option.some_bind] at hrun
      rw [assign_ids_loop_append] at hrun
      cases hseg2 : assign_ids_loop st low f1 [Todo.visit p2] s1 m1 with
      | none => rw [hseg2] at hrun; simp at hrun
      | some r2 =>
        obtain ⟨m2, s2, f2⟩ := r2
        rw [hseg2] at hrun
        simp only [Option.some_bind] at hrun
        cases f2 with
        | zero => simp [assign_ids_loop] at hrun
        | succ g =>
          simp only [assign_ids_loop] at hrun
          have hmem : m2 ++ [(low + m2.length, head)] = mem := by
            simpa using hrun
          -- seg1: p1 is assigned last within its own sub-run
          obtain ⟨ps1, hps1⟩ := Option.isSome_iff_exists.1 h1p
          have hg1 : get_parents_if_not_assigned st p1 = some ps1 := by
            simp [get_parents_if_not_assigned, h1, hps1]
          obtain ⟨m1a, hm1, hp1nm, d1, hd1⟩ :=
            assign_ids_loop_visit_decomp st low f p1 ps1 [p1, p2, head] [] m1 s1 f1
              hg1 (by simp) (by simp) hseg1
          -- p2 and head are untouched by seg1
          have havoid2 := assign_ids_loop_avoid st low p2 f [Todo.visit p1]
            [p1, p2, head] [] m1 s1 f1 hseg1 (by simp)
            (fun td htd => by
              rw [List.mem_singleton] at htd
              subst htd
              exact ⟨fun hc => by cases hc; exact h12 rfl, fun hc => by cases hc⟩)
            (by simp)
          have havoidh := assign_ids_loop_avoid st low head f [Todo.visit p1]
            [p1, p2, head] [] m1 s1 f1 hseg1 (by simp)
            (fun td htd => by
              rw [List.mem_singleton] at htd
              subst htd
              exact ⟨fun hc => by cases hc; exact h1h rfl, fun hc => by cases hc⟩)
            (by simp)
          -- seg2: p2 is assigned last within its own sub-run
          obtain ⟨ps2, hps2⟩ := Option.isSome_iff_exists.1 h2p
          have hg2 : get_parents_if_not_assigned st p2 = some ps2 := by
            simp [get_parents_if_not_assigned, h2, hps2]
          obtain ⟨m2a, hm2, hp2nm, d2, hd2⟩ :=
            assign_ids_loop_visit_decomp st low f1 p2 ps2 s1 m1 m2 s2 (g+1)
              hg2 havoid2.2 havoid2.1 hseg2
          -- head is untouched by seg2
          have havoidh2 := assign_ids_loop_avoid st low head f1 [Todo.visit p2]
            s1 m1 m2 s2 (g+1) hseg2 havoidh.2
            (fun td htd => by
              rw [List.mem_singleton] at htd
              subst htd
              exact ⟨fun hc => by cases hc; exact h2h rfl, fun hc => by cases hc⟩)
            havoidh.1
          refine ⟨low + m1a.length, low + m2a.length, low + m2.length, ?_, ?_, ?_, ?_, ?_⟩
          · -- find p1
            have he : mem = m1 ++ (d2 ++ ([(low + m2a.length, p2)] ++ [(low + m2.length, head)])) := by
              rw [← hmem, hm2, hd2]
              simp
            rw [he, mem_find_vertex_append, hm1, mem_find_vertex_append,
              mem_find_vertex_none _ _ hp1nm, mem_find_vertex_singleton]
            rfl
          · -- find p2
            have he : mem = m2a ++ ([(low + m2a.length, p2)] ++ [(low + m2.length, head)]) := by
              rw [← hmem, hm2]
              simp
            rw [he, mem_find_vertex_append, mem_find_vertex_none _ _ hp2nm,
              mem_find_vertex_append, mem_find_vertex_singleton]
            rfl
          · -- find head
            rw [← hmem, mem_find_vertex_append, mem_find_vertex_none _ _ havoidh2.1,
              mem_find_vertex_singleton]
            rfl
          · -- v1 < v2
            have hl1 : m1.length = m1a.length + 1 := by rw [hm1]; simp
            have hl2 : m2a.length = m1.length + d2.length := by rw [hd2]; simp
            exact Nat.add_lt_add_left (by omega) low
          · -- v2 < vh
            have hl3 : m2.length = m2a.length + 1 := by rw [hm2]; simp
            exact Nat.add_lt_add_left (by omega) low

/-- Witness for the amended C1 on the A/B/C triangle: p1 = B = 2,
p2 = A = 1, head = C = 3. -/
theorem claim_C1_amended_witness :
    ∃ v1 v2 vh,
      mem_find_vertex [((0 : Nat), (2 : Nat)), (1, 1), (2, 3)] 2 = some v1 ∧
      mem_find_vertex [((0 : Nat), (2 : Nat)), (1, 1), (2, 3)] 1 = some v2 ∧
      mem_find_vertex [((0 : Nat), (2 : Nat)), (1, 1), (2, 3)] 3 = some vh ∧
      v1 < v2 ∧ v2 < vh :=
  claim_C1_amended 10 c1TriangleState 3 2 1 0 [(0, 2), (1, 1), (2, 3)]
    (by decide) (by decide) (by decide) (by decide) (by decide) (by decide)
    (by decide) (by decide) (by decide) (by decide)

/-- Helper: `assign_ids` on an already-assigned head computes to the empty
map (the single `visit` sees `None` parents and the loop ends). -/
theorem assign_ids_noop_of_assigned (fuel : Nat) (st : StartState)
    (head : Nat) (low : Nat) (v : Nat)
    (has : mem_find_vertex st.assignments head = some v) (hfuel : 1 ≤ fuel) :
    assign_ids fuel st head low = some [] := by
  cases fuel with
  | zero => omega
  | succ f =>
    have hg : get_parents_if_not_assigned st head = none := by
      simp [get_parents_if_not_assigned, has]
    unfold assign_ids
    simp [assign_ids_loop, hg]

/-- Shape of a successful `assign_ids` run on an unassigned head with
parent data: the head is assigned last, with the highest new vertex. -/
theorem assign_ids_unassigned_shape (fuel : Nat) (st : StartState)
    (head : Nat) (low : Nat) (mem : MemIdMap)
    (hun : mem_find_vertex st.assignments head = none)
    (hsome : (lookup_parents st head).isSome)
    (hrun : assign_ids fuel st head low = some mem) :
    ∃ m0, mem = m0 ++ [(low + m0.length, head)] ∧ head ∉ m0.map Prod.snd := by
  unfold assign_ids at hrun
  cases hl : assign_ids_loop st low fuel [Todo.visit head] [head] [] with
  | none => rw [hl] at hrun; simp at hrun
  | some r =>
    obtain ⟨m', s', f'⟩ := r
    rw [hl] at hrun
    simp only [Option.map_some'] at hrun
    obtain ⟨ps, hps⟩ := Option.isSome_iff_exists.1 hsome
    have hg : get_parents_if_not_assigned st head = some ps := by
      simp [get_parents_if_not_assigned, hun, hps]
    obtain ⟨m0, hm, hnm, _⟩ :=
      assign_ids_loop_visit_decomp st low fuel head ps [head] [] m' s' f'
        hg (by simp) (by simp) hl
    cases hrun
    exact ⟨m0, hm, hnm⟩

/-- The vertices produced by `assign_ids` are the contiguous range
starting at `low`. -/
theorem assign_ids_vertices (fuel : Nat) (st : StartState) (head : Nat)
    (low : Nat) (mem : MemIdMap)
    (hrun : assign_ids fuel st head low = some mem) :
    mem.map Prod.fst = List.range' low mem.length := by
  unfold assign_ids at hrun
  cases hl : assign_ids_loop st low fuel [Todo.visit head] [head] [] with
  | none => rw [hl] at hrun; simp at hrun
  | some r =>
    obtain ⟨m', s', f'⟩ := r
    rw [hl] at hrun
    simp only [Option.map_some'] at hrun
    injection hrun with hz
    rw [← hz]
    exact assign_ids_loop_vertices st low fuel _ _ [] m' s' f' hl (by simp)

/-! ### Lemmas about the BFS prefetch -/

/-- Everything the BFS records is sound: assignments come from idmap
lookups, parents come from the fetcher. -/
theorem bfs_loop_sound (fetcher : ChangesetFetcher) (idmap : IdMapStore)
    (iddag : InProcessIdDag) :
    ∀ (fuel : Nat) (queue visited : List Nat) (st st' : StartState),
    bfs_loop fetcher idmap iddag fuel queue visited st = some st' →
    (∀ e ∈ st.assignments, idmap_find_vertex idmap e.2 = some e.1) →
    (∀ e ∈ st.parents, e.2 = fetcher e.1) →
    (∀ e ∈ st'.assignments, idmap_find_vertex idmap e.2 = some e.1) ∧
    (∀ e ∈ st'.parents, e.2 = fetcher e.1) := by
  intro fuel
  induction fuel with
  | zero =>
    intro queue visited st st' h ha hp
    cases queue with
    | nil =>
      simp [bfs_loop] at h
      exact h ▸ ⟨ha, hp⟩
    | cons c q => simp [bfs_loop] at h
  | succ f ih =>
    intro queue visited st st' h ha hp
    cases queue with
    | nil =>
      simp [bfs_loop] at h
      exact h ▸ ⟨ha, hp⟩
    | cons c q =>
      cases hv : idmap_find_vertex idmap c with
      | none =>
        simp only [bfs_loop, hv] at h
        refine ih _ _ _ _ h ?_ ?_
        · exact ha
        · intro e he
          rcases List.mem_cons.1 he with rfl | he
          · rfl
          · exact hp e he
      | some v =>
        simp only [bfs_loop, hv] at h
        have hnext : ∀ st'', (bfs_loop fetcher idmap iddag f q visited
              ⟨(c, fetcher c) :: st.parents, st.assignments ++ [(v, c)]⟩ = some st'' ∨
            ∃ q2 v2, bfs_loop fetcher idmap iddag f q2 v2
              ⟨(c, fetcher c) :: st.parents, st.assignments ++ [(v, c)]⟩ = some st'') →
            True := fun _ _ => trivial
        clear hnext
        have hgoal : ∀ (q2 : List Nat) (v2 : List Nat),
            bfs_loop fetcher idmap iddag f q2 v2
              ⟨(c, fetcher c) :: st.parents, st.assignments ++ [(v, c)]⟩ = some st' →
            (∀ e ∈ st'.assignments, idmap_find_vertex idmap e.2 = some e.1) ∧
            (∀ e ∈ st'.parents, e.2 = fetcher e.1) := by
          intro q2 v2 hrec
          refine ih _ _ _ _ hrec ?_ ?_
          · intro e he
            rcases List.mem_append.1 he with he | he
            · exact ha e he
            · rcases List.mem_singleton.1 he with rfl
              exact hv
          · intro e he
            rcases List.mem_cons.1 he with rfl | he
            · rfl
            · exact hp e he
        by_cases hc : iddag.contains_id v
        · rw [if_neg (by simp [hc])] at h
          exact hgoal _ _ h
        · rw [if_pos (by simp [hc])] at h
          exact hgoal _ _ h

/-- The BFS only adds entries: recorded assignments and parents persist. -/
theorem bfs_loop_mono (fetcher : ChangesetFetcher) (idmap : IdMapStore)
    (iddag : InProcessIdDag) :
    ∀ (fuel : Nat) (queue visited : List Nat) (st st' : StartState),
    bfs_loop fetcher idmap iddag fuel queue visited st = some st' →
    (∀ e ∈ st.assignments, e ∈ st'.assignments) ∧
    (∀ e ∈ st.parents, e ∈ st'.parents) := by
  intro fuel
  induction fuel with
  | zero =>
    intro queue visited st st' h
    cases queue with
    | nil =>
      simp [bfs_loop] at h
      exact h ▸ ⟨fun e he => he, fun e he => he⟩
    | cons c q => simp [bfs_loop] at h
  | succ f ih =>
    intro queue visited st st' h
    cases queue with
    | nil =>
      simp [bfs_loop] at h
      exact h ▸ ⟨fun e he => he, fun e he => he⟩
    | cons c q =>
      have hstep : ∀ (q2 v2 : List Nat) (stn : StartState),
          bfs_loop fetcher idmap iddag f q2 v2 stn = some st' →
          (∀ e ∈ st.assignments, e ∈ stn.assignments) →
          (∀ e ∈ st.parents, e ∈ stn.parents) →
          (∀ e ∈ st.assignments, e ∈ st'.assignments) ∧
          (∀ e ∈ st.parents, e ∈ st'.parents) := by
        intro q2 v2 stn hrec hsub1 hsub2
        obtain ⟨ih1, ih2⟩ := ih _ _ _ _ hrec
        exact ⟨fun e he => ih1 e (hsub1 e he), fun e he => ih2 e (hsub2 e he)⟩
      cases hv : idmap_find_vertex idmap c with
      | none =>
        simp only [bfs_loop, hv] at h
        exact hstep _ _ _ h (fun e he => he) (fun e he => List.mem_cons_of_mem _ he)
      | some v =>
        simp only [bfs_loop, hv] at h
        by_cases hc : iddag.contains_id v
        · rw [if_neg (by simp [hc])] at h
          exact hstep _ _ _ h (fun e he => List.mem_append_left _ he)
            (fun e he => List.mem_cons_of_mem _ he)
        · rw [if_pos (by simp [hc])] at h
          exact hstep _ _ _ h (fun e he => List.mem_append_left _ he)
            (fun e he => List.mem_cons_of_mem _ he)

/-- The first queued changeset is processed: its parents are recorded,
and its assignment is recorded when the idmap knows it. -/
theorem bfs_loop_head (fetcher : ChangesetFetcher) (idmap : IdMapStore)
    (iddag : InProcessIdDag) (fuel : Nat) (c : Nat)
    (queue visited : List Nat) (st st' : StartState)
    (h : bfs_loop fetcher idmap iddag fuel (c :: queue) visited st = some st') :
    (c, fetcher c) ∈ st'.parents ∧
    (∀ v, idmap_find_vertex idmap c = some v → (v, c) ∈ st'.assignments) := by
  cases fuel with
  | zero => simp [bfs_loop] at h
  | succ f =>
    have key : ∃ (stn : StartState) (q2 v2 : List Nat),
        bfs_loop fetcher idmap iddag f q2 v2 stn = some st' ∧
        stn.parents = (c, fetcher c) :: st.parents ∧
        ((idmap_find_vertex idmap c = none ∧ stn.assignments = st.assignments) ∨
         (∃ v, idmap_find_vertex idmap c = some v ∧
            stn.assignments = st.assignments ++ [(v, c)])) := by
      cases hv : idmap_find_vertex idmap c with
      | none =>
        simp only [bfs_loop, hv] at h
        exact ⟨_, _, _, h, rfl, Or.inl ⟨rfl, rfl⟩⟩
      | some v =>
        simp only [bfs_loop, hv] at h
        by_cases hc : iddag.contains_id v
        · rw [if_neg (by simp [hc])] at h
          exact ⟨_, _, _, h, rfl, Or.inr ⟨v, rfl, rfl⟩⟩
        · rw [if_pos (by simp [hc])] at h
          exact ⟨_, _, _, h, rfl, Or.inr ⟨v, rfl, rfl⟩⟩
    obtain ⟨stn, q2, v2, hrec, hpar, hcase⟩ := key
    obtain ⟨hassn, hparents⟩ := bfs_loop_mono fetcher idmap iddag f _ _ _ _ hrec
    constructor
    · exact hparents _ (by rw [hpar]; exact List.mem_cons_self _ _)
    · intro v hfind
      rcases hcase with ⟨hnone, _⟩ | ⟨w, hsome, hasg⟩
      · rw [hnone] at hfind; cases hfind
      · rw [hsome] at hfind
        cases hfind
        exact hassn _ (by rw [hasg]; exact List.mem_append_right _ (List.mem_singleton.2 rfl))

/-- When the head is in the idmap and its vertex is already covered by
the iddag, the BFS finishes after the single head step, recording exactly
that one parent list and that one assignment. -/
theorem bfs_loop_quick (fetcher : ChangesetFetcher) (idmap : IdMapStore)
    (iddag : InProcessIdDag) (f : Nat) (head : Nat) (v : Nat)
    (hfind : idmap_find_vertex idmap head = some v)
    (hcont : iddag.contains_id v = true) :
    bfs_loop fetcher idmap iddag (f+1) [head] [] ⟨[], []⟩ =
      some ⟨[(head, fetcher head)], [(v, head)]⟩ := by
  simp only [bfs_loop, hfind, hcont]
  simp [bfs_loop]

/-- A vertex recorded in the final BFS assignments is exactly the idmap's
vertex for that changeset. -/
theorem bfs_st_find_sound (fetcher : ChangesetFetcher) (idmap : IdMapStore)
    (iddag : InProcessIdDag) (fuel : Nat) (queue visited : List Nat)
    (st' : StartState) (c : Nat) (v : Nat)
    (hrun : bfs_loop fetcher idmap iddag fuel queue visited ⟨[], []⟩ = some st')
    (hfind : mem_find_vertex st'.assignments c = some v) :
    idmap_find_vertex idmap c = some v := by
  obtain ⟨hsound, _⟩ := bfs_loop_sound fetcher idmap iddag fuel queue visited _ st' hrun
    (by simp) (by simp)
  unfold mem_find_vertex at hfind
  cases hf : st'.assignments.find? (fun e => e.2 == c) with
  | none => rw [hf] at hfind; cases hfind
  | some e =>
    rw [hf] at hfind
    simp only [Option.map_some'] at hfind
    have he : e ∈ st'.assignments := List.mem_of_find?_eq_some hf
    have hec : e.2 = c := by
      have := List.find?_some hf
      simpa using this
    have := hsound e he
    rw [hec] at this
    rw [this]
    injection hfind with hz
    rw [hz]

/-- When the idmap knows the head, the final BFS assignments resolve the
head to precisely that vertex. -/
theorem bfs_st_find_head (fetcher : ChangesetFetcher) (idmap : IdMapStore)
    (iddag : InProcessIdDag) (fuel : Nat) (head : Nat)
    (queue visited : List Nat) (st' : StartState) (v : Nat)
    (hrun : bfs_loop fetcher idmap iddag fuel (head :: queue) visited ⟨[], []⟩ = some st')
    (hv : idmap_find_vertex idmap head = some v) :
    mem_find_vertex st'.assignments head = some v := by
  obtain ⟨_, hmem⟩ := bfs_loop_head fetcher idmap iddag fuel head queue visited _ st' hrun
  have hin : (v, head) ∈ st'.assignments := hmem v hv
  unfold mem_find_vertex
  cases hf : st'.assignments.find? (fun e => e.2 == head) with
  | none =>
    exact absurd (List.find?_eq_none.1 hf _ hin) (by simp)
  | some e =>
    simp only [Option.map_some']
    have he : e ∈ st'.assignments := List.mem_of_find?_eq_some hf
    have hec : e.2 = head := by
      have := List.find?_some hf
      simpa using this
    obtain ⟨hsound, _⟩ := bfs_loop_sound fetcher idmap iddag fuel _ visited _ st' hrun
      (by simp) (by simp)
    have := hsound e he
    rw [hec, hv] at this
    injection this with hz
    rw [hz]

/-- The head's parents, as recorded by the BFS, are the fetcher's answer. -/
theorem bfs_st_lookup_head (fetcher : ChangesetFetcher) (idmap : IdMapStore)
    (iddag : InProcessIdDag) (fuel : Nat) (head : Nat)
    (queue visited : List Nat) (st' : StartState)
    (hrun : bfs_loop fetcher idmap iddag fuel (head :: queue) visited ⟨[], []⟩ = some st') :
    lookup_parents st' head = some (fetcher head) := by
  obtain ⟨hin, _⟩ := bfs_loop_head fetcher idmap iddag fuel head queue visited _ st' hrun
  obtain ⟨_, hsound⟩ := bfs_loop_sound fetcher idmap iddag fuel _ visited _ st' hrun
    (by simp) (by simp)
  unfold lookup_parents
  cases hf : st'.parents.find? (fun e => e.1 == head) with
  | none =>
    exact absurd (List.find?_eq_none.1 hf _ hin) (by simp)
  | some e =>
    simp only [Option.map_some']
    have he : e ∈ st'.parents := List.mem_of_find?_eq_some hf
    have hec : e.1 = head := by
      have := List.find?_some hf
      simpa using this
    have := hsound e he
    rw [this, hec]

/-! ### Lemmas about `get_last_entry` -/

/-- The next id encoded by an optional last entry. -/
def opt_next_id (o : Option (Nat × Nat)) : Nat :=
  match o with
  | none => 0
  | some e => e.1 + 1

/-- Restatement of `id_map_next_id` through `opt_next_id`. -/
theorem id_map_next_id_eq (m : IdMapStore) :
    id_map_next_id m = opt_next_id (idmap_get_last_entry m) := by
  cases h : idmap_get_last_entry m <;> simp [id_map_next_id, opt_next_id, h]

/-- One fold step takes the max of the next ids. -/
theorem last_entry_step_next (acc : Option (Nat × Nat))
    (e : Nat × Nat) :
    opt_next_id (last_entry_step acc e) = max (opt_next_id acc) (e.1 + 1) := by
  cases acc with
  | none => simp [last_entry_step, opt_next_id]
  | some b =>
    by_cases hb : b.1 < e.1
    · simp only [last_entry_step, if_pos hb, opt_next_id]
      exact (Nat.max_eq_right (by omega)).symm
    · simp only [last_entry_step, if_neg hb, opt_next_id]
      exact (Nat.max_eq_left (by omega)).symm

/-- The whole `get_last_entry` fold computes an iterated max of next ids. -/
theorem idmap_fold_next_eq (m : IdMapStore) :
    ∀ (acc : Option (Nat × Nat)),
    opt_next_id (m.foldl last_entry_step acc) =
      m.foldl (fun n e => max n (e.1 + 1)) (opt_next_id acc) := by
  induction m with
  | nil => intro acc; rfl
  | cons e m ih =>
    intro acc
    rw [List.foldl_cons, List.foldl_cons, ih, last_entry_step_next]

/-- The iterated max only grows from its initial value. -/
theorem foldl_max_init_le (m : IdMapStore) :
    ∀ (n : Nat), n ≤ m.foldl (fun n e => max n (e.1 + 1)) n := by
  induction m with
  | nil => intro n; exact Nat.le_refl n
  | cons e m ih =>
    intro n
    rw [List.foldl_cons]
    exact Nat.le_trans (Nat.le_max_left _ _) (ih _)

/-- Every entry's vertex is below the iterated max. -/
theorem foldl_max_entry_lt (m : IdMapStore) :
    ∀ (n : Nat) (e : Nat × Nat), e ∈ m →
      e.1 < m.foldl (fun n e => max n (e.1 + 1)) n := by
  induction m with
  | nil => intro n e he; cases he
  | cons a m ih =>
    intro n e he
    rw [List.foldl_cons]
    rcases List.mem_cons.1 he with rfl | he
    · exact Nat.lt_of_lt_of_le (Nat.lt_of_lt_of_le (Nat.lt_succ_self _)
        (Nat.le_max_right _ _)) (foldl_max_init_le m _)
    · exact ih _ e he

/-- Every idmap entry's vertex is strictly below `id_map_next_id`. -/
theorem idmap_entry_lt_next (m : IdMapStore) (e : Nat × Nat)
    (he : e ∈ m) : e.1 < id_map_next_id m := by
  rw [id_map_next_id_eq, idmap_get_last_entry, idmap_fold_next_eq]
  exact foldl_max_entry_lt m _ e he

/-- Appending a contiguous range of fresh vertices advances
`id_map_next_id` by exactly the number of new entries. -/
theorem id_map_next_id_append_range (m : IdMapStore) (mem : MemIdMap)
    (hv : mem.map Prod.fst = List.range' (id_map_next_id m) mem.length) :
    id_map_next_id (m ++ mem) = id_map_next_id m + mem.length := by
  have hgen : ∀ (l : MemIdMap) (n : Nat),
      l.map Prod.fst = List.range' n l.length →
      l.foldl (fun n e => max n (e.1 + 1)) n = n + l.length := by
    intro l
    induction l with
    | nil => intro n _; rfl
    | cons e l ih =>
      intro n hmap
      rw [List.length_cons, List.range'_succ, List.map_cons] at hmap
      have he1 : e.1 = n := by
        have := congrArg (fun x => x.head?) hmap
        simpa using this
      have ht : l.map Prod.fst = List.range' (n + 1) l.length := by
        have := congrArg (fun x => x.tail) hmap
        simpa using this
      rw [List.foldl_cons, he1, Nat.max_eq_right (Nat.le_succ n), ih (n + 1) ht,
        List.length_cons]
      omega
  rw [id_map_next_id_eq, idmap_get_last_entry, List.foldl_append,
    ← idmap_get_last_entry, idmap_fold_next_eq, ← id_map_next_id_eq]
  exact hgen mem (id_map_next_id m) hv

/-- A found vertex is below `id_map_next_id`. -/
theorem idmap_find_lt_next (m : IdMapStore) (c v : Nat)
    (h : idmap_find_vertex m c = some v) : v < id_map_next_id m := by
  unfold idmap_find_vertex at h
  cases hf : m.find? (fun e => e.2 == c) with
  | none => rw [hf] at h; cases h
  | some e =>
    rw [hf] at h
    simp only [Option.map_some'] at h
    injection h with hz
    rw [← hz]
    exact idmap_entry_lt_next m e (List.mem_of_find?_eq_some hf)

/-- The persistent and in-memory find agree (same representation). -/
theorem idmap_find_eq_mem_find (m : IdMapStore) (c : Nat) :
    idmap_find_vertex m c = mem_find_vertex m c := rfl

/-! ### Claim C5: the id_dag/id_map invariant check -/

/-- C5: `build_incremental` fails with the re-seed directive whenever
`iddag.next_free_id` exceeds `idmap.last_vertex + 1` (that is,
`id_map_next_id`), never reconciling that state silently; whereas when
`iddag.next_free_id` is strictly smaller it continues with the main
update path (the source additionally logs a warning there, which is
observable only in the logger and not modelled). -/
theorem claim_C5_invariant_check (fetcher : ChangesetFetcher) (dag : Dag)
    (head : Nat) (bf af : Nat) :
    (dag.iddag.next_free_id > id_map_next_id dag.idmap →
      build_incremental fetcher dag head bf af =
        some (Except.error UpdateError.reseed)) ∧
    (dag.iddag.next_free_id < id_map_next_id dag.idmap →
      prepare_incremental_iddag_update fetcher dag.iddag dag.idmap head bf af =
        prepare_main fetcher dag.iddag dag.idmap head bf af) := by
  constructor
  · intro hgt
    unfold build_incremental prepare_incremental_iddag_update
    rw [if_pos hgt]
  · intro hlt
    unfold prepare_incremental_iddag_update
    rw [if_neg (by omega)]

/-- Witness for C5: an iddag ahead of the idmap bails with the re-seed
error; an iddag behind the idmap proceeds to the main path. -/
theorem claim_C5_witness :
    build_incremental (fun _ => []) ⟨⟨5⟩, [(0, 1)]⟩ 1 1 1 =
      some (Except.error UpdateError.reseed) ∧
    prepare_incremental_iddag_update (fun _ => []) ⟨0⟩ [(0, 1)] 1 1 1 =
      prepare_main (fun _ => []) ⟨0⟩ [(0, 1)] 1 1 1 :=
  ⟨(claim_C5_invariant_check (fun _ => []) ⟨⟨5⟩, [(0, 1)]⟩ 1 1 1).1 (by decide),
   (claim_C5_invariant_check (fun _ => []) ⟨⟨0⟩, [(0, 1)]⟩ 1 1 1).2 (by decide)⟩

/-! ### Claim C4: idempotence of `build_incremental` -/

/-- Inversion of a successful `prepare_incremental_iddag_update`: the
invariant check passed, the BFS finished, and either the early-return
path fired (iddag in sync and head assigned) or the main assignment path
ran. -/
theorem prepare_ok_cases (fetcher : ChangesetFetcher) (iddag : InProcessIdDag)
    (idmap : IdMapStore) (head : Nat) (bf af : Nat) (v : Nat)
    (upd : Option (StartState × MemIdMap)) (idmap2 : IdMapStore)
    (hp : prepare_incremental_iddag_update fetcher iddag idmap head bf af =
      some (Except.ok (v, upd, idmap2))) :
    ¬ iddag.next_free_id > id_map_next_id idmap ∧
    ∃ st, bfs_loop fetcher idmap iddag bf [head] [] ⟨[], []⟩ = some st ∧
      ((iddag.next_free_id = id_map_next_id idmap ∧
        mem_find_vertex st.assignments head = some v ∧ upd = none ∧ idmap2 = idmap) ∨
       (¬ (iddag.next_free_id = id_map_next_id idmap ∧
            (mem_find_vertex st.assignments head).isSome) ∧
        ∃ mem, assign_ids af st head (id_map_next_id idmap) = some mem ∧
          (mem_find_vertex mem head <|> mem_find_vertex st.assignments head) = some v ∧
          upd = some (st, mem) ∧ idmap2 = idmap ++ mem)) := by
  unfold prepare_incremental_iddag_update at hp
  by_cases hgt : iddag.next_free_id > id_map_next_id idmap
  · rw [if_pos hgt] at hp; cases hp
  · rw [if_neg hgt] at hp
    refine ⟨hgt, ?_⟩
    unfold prepare_main at hp
    cases hbfs : bfs_loop fetcher idmap iddag bf [head] [] ⟨[], []⟩ with
    | none => rw [hbfs] at hp; cases hp
    | some st =>
      rw [hbfs] at hp
      simp only at hp
      refine ⟨st, rfl, ?_⟩
      cases hearly : (if iddag.next_free_id = id_map_next_id idmap
          then mem_find_vertex st.assignments head else none) with
      | some hv0 =>
        rw [hearly] at hp
        simp only at hp
        injection hp with hp
        injection hp with hp
        have he1 : hv0 = v := congrArg Prod.fst hp
        have he2 : (none : Option (StartState × MemIdMap)) = upd :=
          congrArg (fun t => t.2.1) hp
        have he3 : idmap = idmap2 := congrArg (fun t => t.2.2) hp
        by_cases hdm : iddag.next_free_id = id_map_next_id idmap
        · rw [if_pos hdm] at hearly
          exact Or.inl ⟨hdm, by rw [hearly, he1], he2.symm, he3.symm⟩
        · rw [if_neg hdm] at hearly; cases hearly
      | none =>
        rw [hearly] at hp
        simp only at hp
        have hne : ¬ (iddag.next_free_id = id_map_next_id idmap ∧
            (mem_find_vertex st.assignments head).isSome) := by
          rintro ⟨hdm, hs⟩
          rw [if_pos hdm] at hearly
          rw [hearly] at hs
          cases hs
        cases hassign : assign_ids af st head (id_map_next_id idmap) with
        | none => rw [hassign] at hp; cases hp
        | some mem =>
          rw [hassign] at hp
          simp only at hp
          cases hoe : (mem_find_vertex mem head <|> mem_find_vertex st.assignments head) with
          | none => rw [hoe] at hp; simp at hp
          | some hv0 =>
            rw [hoe] at hp
            simp only at hp
            injection hp with hp
            injection hp with hp
            refine Or.inr ⟨hne, mem, rfl, ?_, ?_, ?_⟩
            · rw [hoe]; rw [show hv0 = v from congrArg Prod.fst hp]
            · exact (congrArg (fun t => t.2.1) hp).symm
            · exact (congrArg (fun t => t.2.2) hp).symm

/-- Helper: with zero fuel `assign_ids` cannot run. -/
theorem assign_ids_zero (st : StartState) (head low : Nat) :
    assign_ids 0 st head low = none := rfl

/-- A dag state whose head is already in the idmap, covered by the iddag,
and whose iddag is not ahead of the idmap, is a fixpoint of
`build_incremental`: the call returns the head's existing vertex and
changes nothing (via the early return when the two stores are in sync,
via an empty assignment otherwise). -/
theorem build_incremental_quick (fetcher : ChangesetFetcher) (dag : Dag)
    (head : Nat) (b af : Nat) (v : Nat)
    (hfind : idmap_find_vertex dag.idmap head = some v)
    (hcont : v < dag.iddag.next_free_id)
    (hle : dag.iddag.next_free_id ≤ id_map_next_id dag.idmap)
    (hsync : dag.iddag.next_free_id = id_map_next_id dag.idmap ∨ 1 ≤ af) :
    build_incremental fetcher dag head (b+1) af = some (Except.ok (v, dag)) := by
  have hcontb : dag.iddag.contains_id v = true := by
    simp only [InProcessIdDag.contains_id, decide_eq_true_eq]
    exact hcont
  have hbfs2 := bfs_loop_quick fetcher dag.idmap dag.iddag b head v hfind hcontb
  unfold build_incremental prepare_incremental_iddag_update
  rw [if_neg (by omega)]
  unfold prepare_main
  rw [hbfs2]
  dsimp only
  by_cases hEq : dag.iddag.next_free_id = id_map_next_id dag.idmap
  · rw [if_pos hEq, mem_find_vertex_singleton]
  · rw [if_neg hEq]
    have haf : 1 ≤ af := hsync.resolve_left hEq
    have hassign2 : assign_ids af ⟨[(head, fetcher head)], [(v, head)]⟩ head
        (id_map_next_id dag.idmap) = some [] :=
      assign_ids_noop_of_assigned af _ head _ v (mem_find_vertex_singleton v head) haf
    rw [hassign2]
    dsimp only
    rw [show mem_find_vertex ([] : MemIdMap) head = none from rfl,
      mem_find_vertex_singleton]
    rw [show ((none : Option Nat) <|> some v) = some v from rfl]
    dsimp only [update_iddag, InProcessIdDag.build_segments_volatile, idmap_insert_many]
    rw [max_eq_left hcont, List.append_nil]

/-- C4 (amended): a successful `build_incremental` is idempotent in
outcome.  Running it again from the state it produced returns the same
head vertex and leaves both the idmap and the iddag unchanged.  The
second call takes the early-return path exactly when the first call left
`id_dag_next_id` equal to `id_map_next_id` (in particular whenever it
assigned at least one new vertex); when the idmap is still ahead of the
iddag the same no-op outcome is reached through the normal path. -/
theorem claim_C4_amended (fetcher : ChangesetFetcher) (dag : Dag) (head : Nat)
    (bf af : Nat) (v : Nat) (dag' : Dag)
    (h1 : build_incremental fetcher dag head bf af = some (Except.ok (v, dag'))) :
    build_incremental fetcher dag' head bf af = some (Except.ok (v, dag')) := by
  unfold build_incremental at h1
  cases hp : prepare_incremental_iddag_update fetcher dag.iddag dag.idmap head bf af with
  | none => rw [hp] at h1; cases h1
  | some exc =>
    rw [hp] at h1
    cases exc with
    | error e => simp at h1
    | ok trip =>
      obtain ⟨hv, upd, idmap2⟩ := trip
      obtain ⟨hgt, st, hbfs, hcases⟩ :=
        prepare_ok_cases fetcher dag.iddag dag.idmap head bf af hv upd idmap2 hp
      obtain ⟨b, rfl⟩ : ∃ b, bf = b + 1 := by
        cases bf with
        | zero => simp [bfs_loop] at hbfs
        | succ b => exact ⟨b, rfl⟩
      rcases hcases with ⟨hdm, hfound, rfl, rfl⟩ | ⟨hne, mem, hassign, hoe, rfl, rfl⟩
      · -- early-return path: the state was already in sync
        dsimp only at h1
        injection h1 with h1
        injection h1 with h1
        have hveq : hv = v := congrArg Prod.fst h1
        have hdag : Dag.mk dag.iddag dag.idmap = dag' := congrArg Prod.snd h1
        subst hveq
        have hfind := bfs_st_find_sound fetcher dag.idmap dag.iddag (b+1) [head] []
          st head hv hbfs hfound
        have hlt : hv < id_map_next_id dag.idmap := idmap_find_lt_next _ _ _ hfind
        rw [← hdag]
        exact build_incremental_quick fetcher ⟨dag.iddag, dag.idmap⟩ head b af hv
          hfind (show hv < dag.iddag.next_free_id by omega)
          (show dag.iddag.next_free_id ≤ id_map_next_id dag.idmap by omega)
          (Or.inl hdm)
      · -- main path
        dsimp only at h1
        injection h1 with h1
        injection h1 with h1
        have hveq : hv = v := congrArg Prod.fst h1
        have hdag : Dag.mk (update_iddag dag.iddag hv) (dag.idmap ++ mem) = dag' :=
          congrArg Prod.snd h1
        subst hveq
        have haf : 1 ≤ af := by
          cases af with
          | zero => rw [assign_ids_zero] at hassign; cases hassign
          | succ a => omega
        cases hah : mem_find_vertex st.assignments head with
        | some v0 =>
          -- head was already assigned in the idmap; nothing new was assigned
          have hmem : mem = [] :=
            assign_ids_of_assigned af st head _ mem (by rw [hah]; rfl) hassign
          subst hmem
          rw [show mem_find_vertex ([] : MemIdMap) head = none from rfl, hah] at hoe
          have hveq0 : v0 = hv := by
            have h2 : (some v0 : Option Nat) = some hv := hoe
            injection h2
          rw [hveq0] at hah
          have hfind := bfs_st_find_sound fetcher dag.idmap dag.iddag (b+1) [head] []
            st head hv hbfs hah
          have hlt : hv < id_map_next_id dag.idmap := idmap_find_lt_next _ _ _ hfind
          rw [← hdag]
          refine build_incremental_quick fetcher _ head b af hv ?_ ?_ ?_ (Or.inr haf)
          · show idmap_find_vertex (dag.idmap ++ []) head = some hv
            rw [List.append_nil]
            exact hfind
          · show hv < max dag.iddag.next_free_id (hv + 1)
            exact lt_of_lt_of_le (Nat.lt_succ_self hv) (le_max_right _ _)
          · show max dag.iddag.next_free_id (hv + 1) ≤ id_map_next_id (dag.idmap ++ [])
            rw [List.append_nil]
            exact max_le (by omega) (by omega)
        | none =>
          -- head was unassigned; the first call assigned it the top vertex
          have hlook : (lookup_parents st head).isSome = true := by
            rw [bfs_st_lookup_head fetcher dag.idmap dag.iddag (b+1) head [] [] st hbfs]
            rfl
          obtain ⟨m0, hm0, hnm0⟩ :=
            assign_ids_unassigned_shape af st head _ mem hah hlook hassign
          have hfmem : mem_find_vertex mem head =
              some (id_map_next_id dag.idmap + m0.length) := by
            rw [hm0, mem_find_vertex_append, mem_find_vertex_none _ _ hnm0,
              mem_find_vertex_singleton]
            rfl
          rw [hfmem, hah] at hoe
          obtain rfl : id_map_next_id dag.idmap + m0.length = hv := by
            have h2 : (some (id_map_next_id dag.idmap + m0.length) : Option Nat) =
                some hv := hoe
            injection h2
          have hifn : idmap_find_vertex dag.idmap head = none := by
            cases hw : idmap_find_vertex dag.idmap head with
            | none => rfl
            | some w =>
              have hcontr := bfs_st_find_head fetcher dag.idmap dag.iddag (b+1)
                head [] [] st w hbfs hw
              rw [hah] at hcontr
              cases hcontr
          have hrange := assign_ids_vertices af st head _ mem hassign
          have hM2 : id_map_next_id (dag.idmap ++ mem) =
              id_map_next_id dag.idmap + mem.length :=
            id_map_next_id_append_range dag.idmap mem hrange
          have hlen : mem.length = m0.length + 1 := by rw [hm0]; simp
          have hfind2 : idmap_find_vertex (dag.idmap ++ mem) head =
              some (id_map_next_id dag.idmap + m0.length) := by
            rw [idmap_find_eq_mem_find, mem_find_vertex_append,
              ← idmap_find_eq_mem_find, hifn,
              show (Option.or none (mem_find_vertex mem head)) =
                mem_find_vertex mem head from rfl,
              hfmem]
          rw [← hdag]
          refine build_incremental_quick fetcher _ head b af _ ?_ ?_ ?_ (Or.inr haf)
          · exact hfind2
          · show id_map_next_id dag.idmap + m0.length <
              max dag.iddag.next_free_id (id_map_next_id dag.idmap + m0.length + 1)
            exact lt_of_lt_of_le (Nat.lt_succ_self _) (le_max_right _ _)
          · show max dag.iddag.next_free_id (id_map_next_id dag.idmap + m0.length + 1) ≤
              id_map_next_id (dag.idmap ++ mem)
            rw [hM2]
            exact max_le (by omega) (by omega)

/-- The fetcher for the C4 counterexample: commit 11 has parent 10. -/
def c4Fetcher : ChangesetFetcher := fun c => if c == 11 then [10] else []

/-- C4 counterexample start state: the idmap already holds 10 ↦ 0 and
11 ↦ 1 but the iddag is empty — exactly the interrupted-build situation
the spec anticipates (idmap ahead of iddag). -/
def c4Dag : Dag := ⟨⟨0⟩, [(0, 10), (1, 11)]⟩

/-- The state after the first `build_incremental(head = 10)` on `c4Dag`. -/
def c4Dag1 : Dag := ⟨⟨1⟩, [(0, 10), (1, 11)]⟩

/-- C4 counterexample: running `build_incremental(head = 10)` twice from
`c4Dag` is outcome-equivalent (same vertex 0, idmap untouched, iddag
unchanged), but the second call does NOT take the early-return path: its
`prepare_incremental_iddag_update` still returns a `some` iddag update
(because `id_dag_next_id = 1` is still below `id_map_next_id = 2`), not
the early `none`. -/
theorem claim_C4_counterexample :
    build_incremental c4Fetcher c4Dag 10 10 10 = some (Except.ok (0, c4Dag1)) ∧
    build_incremental c4Fetcher c4Dag1 10 10 10 = some (Except.ok (0, c4Dag1)) ∧
    prepare_incremental_iddag_update c4Fetcher c4Dag1.iddag c4Dag1.idmap 10 10 10 =
      some (Except.ok (0, some (⟨[(10, [])], [(0, 10)]⟩, []), [(0, 10), (1, 11)])) := by
  refine ⟨?_, ?_, ?_⟩ <;> rfl

/-- Witness for the amended C4: a fresh one-commit repository; the first
call assigns vertex 0 and the second call is a no-op with the same
result. -/
theorem claim_C4_amended_witness :
    build_incremental (fun _ => []) ⟨⟨1⟩, [(0, 1)]⟩ 1 2 2 =
      some (Except.ok (0, ⟨⟨1⟩, [(0, 1)]⟩)) :=
  claim_C4_amended (fun _ => []) ⟨⟨0⟩, []⟩ 1 2 2 0 ⟨⟨1⟩, [(0, 1)]⟩ (by rfl)

end SegmentedChangelog

namespace TreeManifest

/-- Path components are non-empty byte strings; bytes as naturals. -/
abbrev Component := List Nat

/-- A repository path (`RepoPath`): a sequence of components; `[]` is the
root. -/
abbrev Path := List Component

/-- Raw byte strings. -/
abbrev Bytes := List Nat

/-- The file types of `FileMetadata`. -/
inductive FileType where
  | regular
  | executable
  | symlink
  deriving Repr, DecidableEq

/-- File metadata: a 20-byte node hash (modelled as a natural below
`2 ^ 160`) plus the file type. -/
structure FileMetadata where
  node : Nat
  file_type : FileType
  deriving Repr, DecidableEq

/-- The `store::Flag` of a serialized directory element. -/
inductive Flag where
  | directory
  | file (t : FileType)
  deriving Repr, DecidableEq

/-- A serialized directory element (`store::Element`):
`(component, node, flag)`. -/
structure Element where
  component : Component
  node : Nat
  flag : Flag
  deriving Repr, DecidableEq

/-- A serialized directory (`store::Entry`): its elements in key order. -/
abbrev Entry := List Element

/-- Modelled from the spec (§6 wire format; the `store` module is not
under `src/`): the flag byte of an element. -/
def flagByte : Flag → Nat
  | .directory => 116
  | .file .regular => 114
  | .file .executable => 120
  | .file .symlink => 108

/-- One lowercase-hex digit as a byte. -/
def hexDigit (n : Nat) : Nat := if n < 10 then 48 + n else 87 + n

/-- Modelled from the spec: the 40-byte lowercase-hex rendering of a
20-byte node hash. -/
def hex40 (n : Nat) : Bytes :=
  (List.range 40).map (fun i => hexDigit (n / 16 ^ (39 - i) % 16))

/-- Modelled from the spec (§6): one serialized element —
`component \0 hex(hash) flag \n`. -/
def elementBytes (e : Element) : Bytes :=
  e.component ++ [0] ++ hex40 e.node ++ [flagByte e.flag, 10]

/-- Modelled from the spec: `Entry::to_bytes` — elements concatenated. -/
def entryBytes (entry : Entry) : Bytes :=
  (entry.map elementBytes).flatten

/-- Abstract stand-in for the `crypto` crate's SHA-1 (the crate is
external to the repository): a deterministic digest of the input bytes,
truncated to 20 bytes worth of value so that byte-wise comparison of
digests coincides with numeric comparison. -/
def sha1 (bs : Bytes) : Nat :=
  bs.foldl (fun a b => (a * 331 + b + 1) % (2 ^ 160)) 17

/-- The raw 20 bytes of a node hash (`Node::as_ref`), big-endian. -/
def hashBytes (n : Nat) : Bytes :=
  (List.range 20).map (fun i => n / 256 ^ (19 - i) % 256)

/-- The null node id (`Node::null_id()`): twenty zero bytes. -/
def nullId : Nat := 0

/-- The recursive tree node (`Link`): a file leaf, an in-memory
directory, or a hashed directory whose children may be cached (the
`OnceCell` of `DurableEntry`) or still unloaded. -/
inductive Link where
  | leaf (meta : FileMetadata)
  | ephemeral (children : List (Component × Link))
  | durable (node : Nat) (cached : Option (List (Component × Link)))
  deriving Repr

/-- The errors of the manifest operations (plus the fuel marker, a model
artifact for the finalize recursion whose depth the Rust bounds by the
store's acyclicity). -/
inductive TreeError where
  /-- the blob store has no entry under `(path, node)` -/
  | blobNotFound (p : Path) (n : Nat)
  /-- `Asked to insert (path) but (prefix) is already a file.` -/
  | fileConflict (path : Path) (pfx : Path)
  /-- `Asked to insert (path) but it is already a directory.` -/
  | dirConflict (path : Path)
  /-- `unreachable!()` markers in `insert` / `active_parent_tree_nodes` -/
  | unexpectedDir
  /-- `Found ephemeral parent when finalizing manifest.` -/
  | ephemeralParent
  /-- `unreachable!()` in `active_parent_tree_nodes` (non-durable parent) -/
  | unreachableState
  /-- model artifact: recursion fuel exhausted -/
  | fuel
  deriving Repr, DecidableEq

/-- The blob store (`TreeStore`): keyed by `(path, node)`, holding the
structured entries; `insert` prepends, `get` takes the first match. -/
abbrev Store := List (Path × Nat × Entry)

/-- Translation of `TreeStore::get` resolving to a parsed entry. -/
def store_get (s : Store) (p : Path) (n : Nat) : Except TreeError Entry :=
  match s.find? (fun e => e.1 == p && e.2.1 == n) with
  | some e => Except.ok e.2.2
  | none => Except.error (TreeError.blobNotFound p n)

/-- Translation of `TreeStore::insert` / `InnerStore::insert_entry`. -/
def store_insert (s : Store) (p : Path) (n : Nat) (entry : Entry) : Store :=
  (p, n, entry) :: s

/-- Modelled from the spec (the `link` module is not under `src/`):
parsing a stored entry into children links — directory elements become
unloaded `durable` links, file elements become leaves. -/
def elements_to_links (es : Entry) : List (Component × Link) :=
  es.map (fun e =>
    (e.component,
     match e.flag with
     | Flag.directory => Link.durable e.node none
     | Flag.file t => Link.leaf ⟨e.node, t⟩))

/-- Modelled from the spec: `DurableEntry::get_links` — the cached
children if present, otherwise an at-most-once load from the store. -/
def get_links (s : Store) (p : Path) (node : Nat)
    (cached : Option (List (Component × Link))) :
    Except TreeError (List (Component × Link)) :=
  match cached with
  | some l => Except.ok l
  | none =>
    match store_get s p node with
    | Except.ok entry => Except.ok (elements_to_links entry)
    | Except.error e => Except.error e

/-- Lookup of a child by component (`BTreeMap::get`). -/
def child_get (links : List (Component × Link)) (c : Component) : Option Link :=
  (links.find? (fun e => e.1 == c)).map (·.2)

/-- Byte-wise lexicographic comparison of components (the `BTreeMap` key
order). -/
def ltBytes : List Nat → List Nat → Bool
  | [], [] => false
  | [], _ :: _ => true
  | _ :: _, [] => false
  | a :: as, b :: bs => if a < b then true else if b < a then false else ltBytes as bs

/-- Ordered insert-or-replace of a child (`BTreeMap::insert` /
`entry().or_insert()` followed by mutation). -/
def child_set (links : List (Component × Link)) (c : Component) (l : Link) :
    List (Component × Link) :=
  match links with
  | [] => [(c, l)]
  | (c0, l0) :: rest =>
    if c == c0 then (c, l) :: rest
    else if ltBytes c c0 then (c, l) :: (c0, l0) :: rest
    else (c0, l0) :: child_set rest c l

/-- Modelled from the spec (§4.2; the `link` module is not under `src/`):
`Link::mut_ephemeral_links` — the children of a directory link, loading
and downgrading a `durable` to `ephemeral`; a leaf is a programming
error. -/
def mut_ephemeral_links (s : Store) (p : Path) :
    Link → Except TreeError (List (Component × Link))
  | Link.leaf _ => Except.error TreeError.unexpectedDir
  | Link.ephemeral ls => Except.ok ls
  | Link.durable n cached => get_links s p n cached

/-- The tree manifest: the blob store handle plus the root link. -/
structure Tree where
  store : Store
  root : Link
  deriving Repr

/-- The result of a `get`: a file with metadata, or a directory. -/
inductive FsNode where
  | file (m : FileMetadata)
  | directory
  deriving Repr, DecidableEq

/-- The traversal of `get_link` (`mod.rs`): walk one component at a time
from `cursor` (whose absolute path is `pref`); a leaf or a missing child
before the path is consumed yields `none`. -/
def get_link_aux (s : Store) : Path → Link → Path → Except TreeError (Option Link)
  | _, cursor, [] => Except.ok (some cursor)
  | pref, cursor, comp :: rest =>
    match cursor with
    | Link.leaf _ => Except.ok none
    | Link.ephemeral links =>
      match child_get links comp with
      | none => Except.ok none
      | some child => get_link_aux s (pref ++ [comp]) child rest
    | Link.durable n cached =>
      match get_links s pref n cached with
      | Except.error e => Except.error e
      | Except.ok links =>
        match child_get links comp with
        | none => Except.ok none
        | some child => get_link_aux s (pref ++ [comp]) child rest

/-- Translation of `Tree::get_link`. -/
def get_link (t : Tree) (p : Path) : Except TreeError (Option Link) :=
  get_link_aux t.store [] t.root p

/-- Translation of `Manifest::get` for `Tree`. -/
def get (t : Tree) (p : Path) : Except TreeError (Option FsNode) :=
  match get_link t p with
  | Except.error e => Except.error e
  | Except.ok r =>
    Except.ok (r.map (fun l =>
      match l with
      | Link.leaf m => FsNode.file m
      | _ => FsNode.directory))

/-- The outcome of the first (checking) walk of `insert`. -/
inductive InsertCheck where
  | conflictFile (pfx : Path)
  | missing
  | found (l : Link)
  deriving Repr

/-- The first loop of `Tree::insert`: walk all components, bailing when
the cursor is a file, breaking out with `missing` (`must_insert`) on the
first absent component, and otherwise returning the final cursor. -/
def insert_check (s : Store) : Path → Link → Path → Except TreeError InsertCheck
  | _, cursor, [] => Except.ok (InsertCheck.found cursor)
  | pref, cursor, comp :: rest =>
    match cursor with
    | Link.leaf _ => Except.ok (InsertCheck.conflictFile pref)
    | Link.ephemeral links =>
      match child_get links comp with
      | none => Except.ok InsertCheck.missing
      | some child => insert_check s (pref ++ [comp]) child rest
    | Link.durable n cached =>
      match get_links s pref n cached with
      | Except.error e => Except.error e
      | Except.ok links =>
        match child_get links comp with
        | none => Except.ok InsertCheck.missing
        | some child => insert_check s (pref ++ [comp]) child rest

/-- The second (mutating) walk of `Tree::insert`: convert the spine to
ephemeral (creating empty directories as needed via `or_insert_with`)
and place the leaf at the last component. -/
def insert_mut (s : Store) : Path → Link → Path → Component → FileMetadata →
    Except TreeError Link
  | pref, cursor, [], last, meta =>
    match mut_ephemeral_links s pref cursor with
    | Except.error e => Except.error e
    | Except.ok links =>
      match child_get links last with
      | none => Except.ok (Link.ephemeral (child_set links last (Link.leaf meta)))
      | some (Link.leaf _) =>
        Except.ok (Link.ephemeral (child_set links last (Link.leaf meta)))
      | some _ => Except.error TreeError.unexpectedDir
  | pref, cursor, comp :: rest, last, meta =>
    match mut_ephemeral_links s pref cursor with
    | Except.error e => Except.error e
    | Except.ok links =>
      match insert_mut s (pref ++ [comp])
          ((child_get links comp).getD (Link.ephemeral [])) rest last meta with
      | Except.error e => Except.error e
      | Except.ok child2 => Except.ok (Link.ephemeral (child_set links comp child2))

/-- Splitting off the last component (`RepoPathBuf::split_last_component`). -/
def split_last : Path → Option (Path × Component)
  | [] => none
  | [c] => some ([], c)
  | c :: rest =>
    match split_last rest with
    | none => none
    | some pr => some (c :: pr.1, pr.2)

/-- Translation of `Manifest::insert` for `Tree`: the checking walk, the
equal-metadata early return, the two conflict bails, then the mutating
walk. -/
def insert (t : Tree) (path : Path) (meta : FileMetadata) : Except TreeError Tree :=
  match insert_check t.store [] t.root path with
  | Except.error e => Except.error e
  | Except.ok (InsertCheck.conflictFile pfx) =>
    Except.error (TreeError.fileConflict path pfx)
  | Except.ok st =>
    match st with
    | InsertCheck.found (Link.leaf m) =>
      if m == meta then Except.ok t
      else
        match split_last path with
        | none => Except.error TreeError.unexpectedDir
        | some pr =>
          match insert_mut t.store [] t.root pr.1 pr.2 meta with
          | Except.error e => Except.error e
          | Except.ok root2 => Except.ok ⟨t.store, root2⟩
    | InsertCheck.found _ => Except.error (TreeError.dirConflict path)
    | _ =>
      match split_last path with
      | none => Except.error TreeError.unexpectedDir
      | some pr =>
        match insert_mut t.store [] t.root pr.1 pr.2 meta with
        | Except.error e => Except.error e
        | Except.ok root2 => Except.ok ⟨t.store, root2⟩

mutual

/-- The two mutually recursive walks of `Manifest::flush` for `Tree`
(`do_flush`): leaves and durable subtrees return immediately (durable
subtrees are never rewritten); an ephemeral directory flushes its
children in key order, serializes them, hashes the serialized bytes (no
parent mixing on this path), writes `(path, node, bytes)` to the store
and becomes durable with its children cached. -/
def do_flush : Store → Path → Link → Except TreeError (Nat × Flag × Link × Store)
  | s, _, Link.leaf m => Except.ok (m.node, Flag.file m.file_type, Link.leaf m, s)
  | s, _, Link.durable n cached => Except.ok (n, Flag.directory, Link.durable n cached, s)
  | s, pref, Link.ephemeral links =>
    match do_flush_children s pref links with
    | Except.error e => Except.error e
    | Except.ok (elems, links2, s2) =>
      Except.ok (sha1 (entryBytes elems), Flag.directory,
        Link.durable (sha1 (entryBytes elems)) (some links2),
        store_insert s2 pref (sha1 (entryBytes elems)) elems)

def do_flush_children : Store → Path → List (Component × Link) →
    Except TreeError (Entry × List (Component × Link) × Store)
  | s, _, [] => Except.ok ([], [], s)
  | s, pref, (c, l) :: rest =>
    match do_flush s (pref ++ [c]) l with
    | Except.error e => Except.error e
    | Except.ok (n, fl, l2, s2) =>
      match do_flush_children s2 pref rest with
      | Except.error e => Except.error e
      | Except.ok (es, ls, s3) => Except.ok (⟨c, n, fl⟩ :: es, (c, l2) :: ls, s3)

end

/-- Translation of `Manifest::flush` for `Tree`: flush the root and
return the root hash together with the updated tree (converted links and
grown store). -/
def flush (t : Tree) : Except TreeError (Nat × Tree) :=
  match do_flush t.store [] t.root with
  | Except.error e => Except.error e
  | Except.ok (n, _, root2, s2) => Except.ok (n, ⟨s2, root2⟩)

/-- Translation of `active_parent_tree_nodes`: the active parents' hashes;
a non-durable active parent is the `unreachable!()` of the source. -/
def active_nodes : List Link → Except TreeError (List Nat)
  | [] => Except.ok []
  | Link.durable n _ :: rest =>
    match active_nodes rest with
    | Except.error e => Except.error e
    | Except.ok ns => Except.ok (n :: ns)
  | _ :: _ => Except.error TreeError.unreachableState

/-- Translation of the `compute_node` of `Tree::finalize`: SHA-1 over the
two parent hashes in byte order (the null id filling missing slots,
sorted like any other hash) followed by the entry bytes. -/
def compute_node_finalize (parentNodes : List Nat) (content : Bytes) : Nat :=
  if parentNodes.getD 0 nullId < parentNodes.getD 1 nullId then
    sha1 (hashBytes (parentNodes.getD 0 nullId) ++
      hashBytes (parentNodes.getD 1 nullId) ++ content)
  else
    sha1 (hashBytes (parentNodes.getD 1 nullId) ++
      hashBytes (parentNodes.getD 0 nullId) ++ content)

/-- Translation of `parent_trees_for_subdirectory` for one active parent
positioned at the directory `pref`: the parent stays active for the child
`c` when it has a durable entry there; a file drops it, an ephemeral
parent is the `Found ephemeral parent` panic. -/
def child_active (s : Store) (pref : Path) (c : Component) :
    Link → Except TreeError (Option Link)
  | Link.durable n cached =>
    match get_links s pref n cached with
    | Except.error e => Except.error e
    | Except.ok links =>
      match child_get links c with
      | none => Except.ok none
      | some (Link.leaf _) => Except.ok none
      | some (Link.durable n2 c2) => Except.ok (some (Link.durable n2 c2))
      | some (Link.ephemeral _) => Except.error TreeError.ephemeralParent
  | _ => Except.error TreeError.unreachableState

/-- Refine the active-parent set for a child directory, preserving order. -/
def collect_actives (s : Store) (pref : Path) (c : Component) :
    List Link → Except TreeError (List Link)
  | [] => Except.ok []
  | p :: rest =>
    match child_active s pref c p with
    | Except.error e => Except.error e
    | Except.ok opt =>
      match collect_actives s pref c rest with
      | Except.error e => Except.error e
      | Except.ok others =>
        match opt with
        | none => Except.ok others
        | some l => Except.ok (l :: others)

/-- One tuple of the `finalize` output:
`(path, hash, entry_bytes, p1_hash, p2_hash)`. -/
structure FTuple where
  path : Path
  node : Nat
  bytes : Bytes
  p1 : Nat
  p2 : Nat
  deriving Repr, DecidableEq

mutual

/-- The recursive `Executor::work` of `Tree::finalize`, with its
unchanged-directory early return, leaf case, and directory conversion;
`fin_children` walks the children in key order refining the active
parents; `fin_finish` builds the entry, hashes it with the parent mixing
rule, converts the link to durable and records the output tuple (after
all child tuples).  The store is threaded through explicitly: `work`
only ever reads it.  The `fuel` argument is a model artifact bounding
the recursion depth (decremented on every call so the recursion is
structural); the source recursion always terminates on finite trees. -/
def fin_work : Store → Nat → Path → Link → List Link →
    Except TreeError (Nat × Flag × List FTuple × Link × Store)
  | _, 0, _, _, _ => Except.error TreeError.fuel
  | s, fuel+1, pref, link, actives =>
    match active_nodes actives with
    | Except.error e => Except.error e
    | Except.ok parentNodes =>
      match link with
      | Link.durable n cached =>
        if n ∈ parentNodes then
          Except.ok (n, Flag.directory, [], Link.durable n cached, s)
        else
          match get_links s pref n cached with
          | Except.error e => Except.error e
          | Except.ok links => fin_finish s fuel pref parentNodes actives links
      | Link.leaf m => Except.ok (m.node, Flag.file m.file_type, [], Link.leaf m, s)
      | Link.ephemeral links => fin_finish s fuel pref parentNodes actives links

def fin_finish : Store → Nat → Path → List Nat → List Link →
    List (Component × Link) →
    Except TreeError (Nat × Flag × List FTuple × Link × Store)
  | _, 0, _, _, _, _ => Except.error TreeError.fuel
  | s, fuel+1, pref, parentNodes, actives, links =>
    match fin_children s fuel pref actives links with
    | Except.error e => Except.error e
    | Except.ok (elems, tuples, links2, s2) =>
      Except.ok (compute_node_finalize parentNodes (entryBytes elems), Flag.directory,
        tuples ++ [⟨pref, compute_node_finalize parentNodes (entryBytes elems),
          entryBytes elems, parentNodes.getD 0 nullId, parentNodes.getD 1 nullId⟩],
        Link.durable (compute_node_finalize parentNodes (entryBytes elems)) (some links2),
        s2)

def fin_children : Store → Nat → Path → List Link → List (Component × Link) →
    Except TreeError (Entry × List FTuple × List (Component × Link) × Store)
  | _, 0, _, _, _ => Except.error TreeError.fuel
  | s, _+1, _, _, [] => Except.ok ([], [], [], s)
  | s, fuel+1, pref, actives, (c, l) :: rest =>
    match collect_actives s pref c actives with
    | Except.error e => Except.error e
    | Except.ok childActs =>
      match fin_work s fuel (pref ++ [c]) l childActs with
      | Except.error e => Except.error e
      | Except.ok (n, fl, tups, l2, s2) =>
        match fin_children s2 fuel pref actives rest with
        | Except.error e => Except.error e
        | Except.ok (es, tuples, ls, s3) =>
          Except.ok (⟨c, n, fl⟩ :: es, tups ++ tuples, (c, l2) :: ls, s3)

end

/-- Translation of `Tree::finalize`: run the executor from the root with
all parent roots active and return the converted-directory tuples and
the (unchanged-store) tree. -/
def finalize (t : Tree) (parent_trees : List Tree) (fuel : Nat) :
    Except TreeError (List FTuple × Tree) :=
  match fin_work t.store fuel [] t.root (parent_trees.map (fun p => p.root)) with
  | Except.error e => Except.error e
  | Except.ok (_, _, tuples, root2, s2) => Except.ok (tuples, ⟨s2, root2⟩)

/-- Accumulate one peer entry into the `component → [peer_hashes]` map of
`compat_subtree_diff` (push in iteration order). -/
def omap_add (m : List (Component × List Nat)) (c : Component) (n : Nat) :
    List (Component × List Nat) :=
  match m with
  | [] => [(c, [n])]
  | (c0, ns) :: rest =>
    if c == c0 then (c0, ns ++ [n]) :: rest else (c0, ns) :: omap_add rest c n

/-- Build the peers' `component → [hashes]` map for the current level. -/
def build_others_map (s : Store) (p : Path) :
    List Nat → List (Component × List Nat) →
    Except TreeError (List (Component × List Nat))
  | [], m => Except.ok m
  | n :: rest, m =>
    match store_get s p n with
    | Except.error e => Except.error e
    | Except.ok entry =>
      build_others_map s p rest
        (entry.foldl (fun acc e => omap_add acc e.component e.node) m)

/-- Remove a component's hash list from the map
(`others_map.remove(..).unwrap_or(vec![])`). -/
def omap_remove (m : List (Component × List Nat)) (c : Component) :
    List Nat × List (Component × List Nat) :=
  match m with
  | [] => ([], [])
  | (c0, ns) :: rest =>
    if c == c0 then (ns, rest)
    else
      match omap_remove rest c with
      | (found, rest2) => (found, (c0, ns) :: rest2)

/-- Remove consecutive duplicates (`Vec::dedup`). -/
def dedup_consecutive : List Nat → List Nat
  | [] => []
  | [a] => [a]
  | a :: b :: rest =>
    if a == b then dedup_consecutive (b :: rest)
    else a :: dedup_consecutive (b :: rest)

mutual

/-- The recursive `State::work` of `compat_subtree_diff` together with
its child loop: fetch the entry, recurse (depth permitting) into each
child directory whose hash the peer does not already have, and append
the current directory's triple after all recursive results.  The first
`Nat` is model fuel (decremented on every call so the recursion is
structural); `dr` is the source's `depth_remaining`. -/
def compat_work : Nat → Store → Nat → Path → Nat → List Nat →
    Except TreeError (List (Path × Nat × Bytes))
  | 0, _, _, _, _, _ => Except.error TreeError.fuel
  | fuel+1, s, dr, p, node, others =>
    match store_get s p node with
    | Except.error e => Except.error e
    | Except.ok entry =>
      match dr with
      | 0 => Except.ok [(p, node, entryBytes entry)]
      | dr2+1 =>
        match build_others_map s p others [] with
        | Except.error e => Except.error e
        | Except.ok omap =>
          match compat_children fuel s dr2 p omap entry with
          | Except.error e => Except.error e
          | Except.ok children =>
            Except.ok (children ++ [(p, node, entryBytes entry)])

def compat_children : Nat → Store → Nat → Path → List (Component × List Nat) → Entry →
    Except TreeError (List (Path × Nat × Bytes))
  | 0, _, _, _, _, _ => Except.error TreeError.fuel
  | _+1, _, _, _, _, [] => Except.ok []
  | fuel+1, s, k, p, omap, e :: rest =>
    if e.flag != Flag.directory then compat_children fuel s k p omap rest
    else
      match omap_remove omap e.component with
      | (others, omap2) =>
        if e.node ∈ others then compat_children fuel s k p omap2 rest
        else
          match compat_work fuel s k (p ++ [e.component]) e.node (dedup_consecutive others) with
          | Except.error er => Except.error er
          | Except.ok sub =>
            match compat_children fuel s k p omap2 rest with
            | Except.error er => Except.error er
            | Except.ok restR => Except.ok (sub ++ restR)

end

/-- Translation of `compat_subtree_diff`: empty when the peer already has
the requested node, otherwise the post-order triple list to depth
`depth` (the `i32` depth is clamped: `depth_remaining = depth - 1`, and a
non-positive remainder stops the recursion). -/
def compat_subtree_diff (s : Store) (p : Path) (node : Nat) (others : List Nat)
    (depth : Int) (fuel : Nat) : Except TreeError (List (Path × Nat × Bytes)) :=
  if node ∈ others then Except.ok []
  else compat_work fuel s (depth - 1).toNat p node others

/-- Setting a child then looking it up yields the new link. -/
lemma child_get_set_self (links : List (Component × Link)) (c : Component) (l : Link) :
    child_get (child_set links c l) c = some l := by
  induction links with
  | nil => simp [child_set, child_get, List.find?]
  | cons e rest ih =>
    obtain ⟨c0, l0⟩ := e
    simp only [child_set]
    cases hc : (c == c0) with
    | true =>
      simp only [if_pos rfl, hc, if_true]
      simp [child_get, List.find?]
    | false =>
      simp only [hc, Bool.false_eq_true, if_false]
      cases hlt : ltBytes c c0 with
      | true =>
        simp only [hlt, if_true]
        simp [child_get, List.find?]
      | false =>
        simp only [hlt, Bool.false_eq_true, if_false]
        have hc0 : (c0 == c) = false := by
          rw [beq_eq_false_iff_ne] at hc ⊢
          exact fun h => hc h.symm
        simp [child_get, List.find?, hc0] at ih ⊢
        exact ih

/-- A successful `get_link` walk makes the checking walk of `insert`
return `found` with the same link. -/
lemma check_of_get_some (s : Store) :
    ∀ (p pref : Path) (cur l : Link),
    get_link_aux s pref cur p = Except.ok (some l) →
    insert_check s pref cur p = Except.ok (InsertCheck.found l) := by
  intro p
  induction p with
  | nil =>
    intro pref cur l h
    simp only [get_link_aux, Except.ok.injEq, Option.some.injEq] at h
    simp [insert_check, h]
  | cons comp rest ih =>
    intro pref cur l h
    cases cur with
    | leaf m => simp [get_link_aux] at h
    | ephemeral links =>
      cases hcg : child_get links comp with
      | none => simp [get_link_aux, hcg] at h
      | some child =>
        simp only [get_link_aux, hcg] at h
        simp only [insert_check, hcg]
        exact ih _ _ _ h
    | durable n cached =>
      cases hg : get_links s pref n cached with
      | error e => simp [get_link_aux, hg] at h
      | ok links =>
        simp only [get_link_aux, hg] at h
        simp only [insert_check, hg]
        cases hcg : child_get links comp with
        | none => simp [hcg] at h
        | some child =>
          simp only [hcg] at h
          exact ih _ _ _ h

/-- A `get` returning a file pins the underlying link to a leaf. -/
lemma get_file_link (t : Tree) (p : Path) (m : FileMetadata)
    (h : get t p = Except.ok (some (FsNode.file m))) :
    get_link t p = Except.ok (some (Link.leaf m)) := by
  unfold get at h
  cases hg : get_link t p with
  | error e => rw [hg] at h; exact absurd h (by simp)
  | ok r =>
    rw [hg] at h
    cases r with
    | none => simp at h
    | some l =>
      cases l with
      | leaf m2 => simp at h; rw [h]
      | ephemeral links => simp at h
      | durable n c => simp at h

/-- Splitting a path that ends in a known component. -/
lemma split_last_append : ∀ (p : Path) (c : Component), split_last (p ++ [c]) = some (p, c) := by
  intro p c
  induction p with
  | nil => rfl
  | cons a rest ih =>
    cases rest with
    | nil => rfl
    | cons r0 rs =>
      simp only [List.cons_append, split_last, List.append_eq] at ih ⊢
      rw [ih]

/-- The mutating walk of `insert` along a path that currently ends in a
leaf succeeds and re-points the leaf at the new metadata, leaving the
walk otherwise intact. -/
lemma insert_mut_get (s : Store) :
    ∀ (p pref : Path) (cur : Link) (c : Component) (m0 meta : FileMetadata),
    get_link_aux s pref cur (p ++ [c]) = Except.ok (some (Link.leaf m0)) →
    ∃ root2, insert_mut s pref cur p c meta = Except.ok root2 ∧
      get_link_aux s pref root2 (p ++ [c]) = Except.ok (some (Link.leaf meta)) := by
  intro p
  induction p with
  | nil =>
    intro pref cur c m0 meta h
    cases cur with
    | leaf m => simp [get_link_aux] at h
    | ephemeral links =>
      cases hcg : child_get links c with
      | none => simp [get_link_aux, hcg] at h
      | some child =>
        simp only [List.nil_append, get_link_aux, hcg, Except.ok.injEq,
          Option.some.injEq] at h
        subst h
        refine ⟨Link.ephemeral (child_set links c (Link.leaf meta)), ?_, ?_⟩
        · simp [insert_mut, mut_ephemeral_links, hcg]
        · simp [get_link_aux, child_get_set_self]
    | durable n cached =>
      cases hg : get_links s pref n cached with
      | error e => simp [get_link_aux, hg] at h
      | ok links =>
        cases hcg : child_get links c with
        | none => simp [get_link_aux, hg, hcg] at h
        | some child =>
          simp only [List.nil_append, get_link_aux, hg, hcg, Except.ok.injEq,
            Option.some.injEq] at h
          subst h
          refine ⟨Link.ephemeral (child_set links c (Link.leaf meta)), ?_, ?_⟩
          · simp [insert_mut, mut_ephemeral_links, hg, hcg]
          · simp [get_link_aux, child_get_set_self]
  | cons a rest ih =>
    intro pref cur c m0 meta h
    cases cur with
    | leaf m => simp [get_link_aux] at h
    | ephemeral links =>
      cases hcg : child_get links a with
      | none => simp [get_link_aux, hcg] at h
      | some child =>
        simp only [List.cons_append, get_link_aux, hcg] at h
        obtain ⟨child2, hm2, hg2⟩ := ih (pref ++ [a]) child c m0 meta h
        refine ⟨Link.ephemeral (child_set links a child2), ?_, ?_⟩
        · simp [insert_mut, mut_ephemeral_links, hcg, hm2]
        · simp [get_link_aux, child_get_set_self, hg2]
    | durable n cached =>
      cases hg : get_links s pref n cached with
      | error e => simp [get_link_aux, hg] at h
      | ok links =>
        cases hcg : child_get links a with
        | none => simp [get_link_aux, hg, hcg] at h
        | some child =>
          simp only [List.cons_append, get_link_aux, hg, hcg] at h
          obtain ⟨child2, hm2, hg2⟩ := ih (pref ++ [a]) child c m0 meta h
          refine ⟨Link.ephemeral (child_set links a child2), ?_, ?_⟩
          · simp [insert_mut, mut_ephemeral_links, hg, hcg, hm2]
          · simp [get_link_aux, child_get_set_self, hg2]

/-- The flushed form of a link re-flushes to itself with no further
store writes. -/
lemma do_flush_idem (s : Store) (p : Path) (l l2 : Link) (n : Nat) (fl : Flag)
    (s2 : Store) (h : do_flush s p l = Except.ok (n, fl, l2, s2)) :
    do_flush s2 p l2 = Except.ok (n, fl, l2, s2) := by
  cases l with
  | leaf m =>
    simp only [do_flush, Except.ok.injEq, Prod.mk.injEq] at h
    obtain ⟨h1, h2, h3, h4⟩ := h
    subst h1; subst h2; subst h3; subst h4
    rfl
  | durable n0 cached =>
    simp only [do_flush, Except.ok.injEq, Prod.mk.injEq] at h
    obtain ⟨h1, h2, h3, h4⟩ := h
    subst h1; subst h2; subst h3; subst h4
    rfl
  | ephemeral links =>
    cases hc : do_flush_children s p links with
    | error e => simp [do_flush, hc] at h
    | ok r =>
      obtain ⟨elems, links2, s3⟩ := r
      simp only [do_flush, hc, Except.ok.injEq, Prod.mk.injEq] at h
      obtain ⟨h1, h2, h3, h4⟩ := h
      subst h1; subst h2; subst h3; subst h4
      rfl

/-- Concrete one-file tree used to witness flush idempotence. -/
def c6T0 : Tree := ⟨[], Link.ephemeral [([102], Link.leaf ⟨10, FileType.regular⟩)]⟩

/-- Root hash of `c6T0` after flushing. -/
def c6N : Nat := 390080767865755247426360213603680732597680604596

/-- The flushed form of `c6T0`. -/
def c6T1 : Tree :=
  ⟨[([], c6N, [⟨[102], 10, Flag.file FileType.regular⟩])],
   Link.durable c6N (some [([102], Link.leaf ⟨10, FileType.regular⟩)])⟩

/-- Claim C6: `flush` is idempotent — after a successful flush, flushing
the resulting tree returns the same root hash and the identical tree
(same store, so the second call performs zero blob-store insertions and
never re-serializes a durable subtree). -/
theorem claim_C6_flush_idempotent (t : Tree) (n : Nat) (t2 : Tree)
    (h : flush t = Except.ok (n, t2)) :
    flush t2 = Except.ok (n, t2) := by
  unfold flush at h ⊢
  cases hd : do_flush t.store [] t.root with
  | error e => rw [hd] at h; exact absurd h (by simp)
  | ok r =>
    obtain ⟨n0, fl, root2, s2⟩ := r
    rw [hd] at h
    simp only [Except.ok.injEq, Prod.mk.injEq] at h
    obtain ⟨h1, h2⟩ := h
    subst h2
    rw [← h1]
    have hi := do_flush_idem t.store [] t.root root2 n0 fl s2 hd
    simp [hi]

set_option maxRecDepth 100000 in
/-- Witness for C6 on the concrete tree `c6T0`. -/
theorem claim_C6_witness : flush c6T1 = Except.ok (c6N, c6T1) :=
  claim_C6_flush_idempotent c6T0 c6N c6T1 (by rfl)

/-- Concrete one-file tree used to witness the overwrite behaviour. -/
def c9T : Tree := ⟨[], Link.ephemeral [([102], Link.leaf ⟨10, FileType.regular⟩)]⟩

/-- Claim C9 (implicit): inserting at a path that currently holds a file
with different metadata succeeds, keeps the blob store unchanged, and a
subsequent `get` of the same path returns the new metadata. -/
theorem claim_C9_insert_overwrites_file (t : Tree) (path : Path) (m0 meta : FileMetadata)
    (hne : path ≠ [])
    (hget : get t path = Except.ok (some (FsNode.file m0)))
    (hm : m0 ≠ meta) :
    ∃ t2 : Tree, insert t path meta = Except.ok t2 ∧ t2.store = t.store ∧
      get t2 path = Except.ok (some (FsNode.file meta)) := by
  have hlink := get_file_link t path m0 hget
  obtain ⟨p, c, hpc⟩ : ∃ p c, path = p ++ [c] := by
    rcases List.eq_nil_or_concat path with h | ⟨L, b, h⟩
    · exact absurd h hne
    · exact ⟨L, b, by simpa [List.concat_eq_append] using h⟩
  subst hpc
  have hcheck := check_of_get_some t.store (p ++ [c]) [] t.root _ hlink
  obtain ⟨root2, hmut, hget2⟩ := insert_mut_get t.store p [] t.root c m0 meta hlink
  refine ⟨⟨t.store, root2⟩, ?_, rfl, ?_⟩
  · have hbeq : (m0 == meta) = false := beq_eq_false_iff_ne.mpr hm
    simp only [insert, hcheck, hbeq, Bool.false_eq_true, if_false,
      split_last_append, hmut]
  · simp only [get, get_link]
    simp [hget2]

/-- Witness for C9: overwrite the metadata of the single file of `c9T`. -/
theorem claim_C9_witness :
    ∃ t2 : Tree, insert c9T [[102]] ⟨11, FileType.regular⟩ = Except.ok t2 ∧
      t2.store = c9T.store ∧
      get t2 [[102]] = Except.ok (some (FsNode.file ⟨11, FileType.regular⟩)) :=
  claim_C9_insert_overwrites_file c9T [[102]] ⟨10, FileType.regular⟩
    ⟨11, FileType.regular⟩ (by decide) (by rfl) (by decide)

/-- A `store_get` failure is always a `blobNotFound` for the queried key. -/
lemma store_get_error (s : Store) (p : Path) (n : Nat) (e : TreeError)
    (h : store_get s p n = Except.error e) : e = TreeError.blobNotFound p n := by
  unfold store_get at h
  cases hf : s.find? (fun x => x.1 == p && x.2.1 == n) with
  | none =>
    rw [hf] at h
    simp only [Except.error.injEq] at h
    exact h.symm
  | some x => rw [hf] at h; simp at h

/-- A `get_links` failure is always a `blobNotFound` for the queried key. -/
lemma get_links_error (s : Store) (p : Path) (n : Nat)
    (cached : Option (List (Component × Link))) (e : TreeError)
    (h : get_links s p n cached = Except.error e) : e = TreeError.blobNotFound p n := by
  unfold get_links at h
  cases cached with
  | some l => simp at h
  | none =>
    cases hg : store_get s p n with
    | error e2 =>
      simp only [hg] at h
      cases h
      exact store_get_error s p n e hg
    | ok entry => simp [hg] at h

/-- The checking walk of `insert` can only fail with `blobNotFound`. -/
lemma insert_check_error (s : Store) :
    ∀ (p pref : Path) (cur : Link) (e : TreeError),
    insert_check s pref cur p = Except.error e →
    ∃ q n, e = TreeError.blobNotFound q n := by
  intro p
  induction p with
  | nil => intro pref cur e h; simp [insert_check] at h
  | cons comp rest ih =>
    intro pref cur e h
    cases cur with
    | leaf m => simp [insert_check] at h
    | ephemeral links =>
      cases hcg : child_get links comp with
      | none => simp [insert_check, hcg] at h
      | some child =>
        simp only [insert_check, hcg] at h
        exact ih _ _ _ h
    | durable n cached =>
      cases hg : get_links s pref n cached with
      | error e2 =>
        simp only [insert_check, hg] at h
        cases h
        exact ⟨pref, n, get_links_error s pref n cached e hg⟩
      | ok links =>
        simp only [insert_check, hg] at h
        cases hcg : child_get links comp with
        | none => simp [hcg] at h
        | some child =>
          simp only [hcg] at h
          exact ih _ _ _ h

/-- The mutating walk of `insert` can only fail with `unexpectedDir` or
`blobNotFound`. -/
lemma insert_mut_error (s : Store) :
    ∀ (p pref : Path) (cur : Link) (c : Component) (meta : FileMetadata) (e : TreeError),
    insert_mut s pref cur p c meta = Except.error e →
    e = TreeError.unexpectedDir ∨ ∃ q n, e = TreeError.blobNotFound q n := by
  intro p
  induction p with
  | nil =>
    intro pref cur c meta e h
    cases cur with
    | leaf m =>
      simp only [insert_mut, mut_ephemeral_links] at h
      cases h
      exact Or.inl rfl
    | ephemeral links =>
      simp only [insert_mut, mut_ephemeral_links] at h
      cases hcg : child_get links c with
      | none => simp [hcg] at h
      | some child =>
        simp only [hcg] at h
        cases child with
        | leaf m2 => simp at h
        | ephemeral l2 => cases h; exact Or.inl rfl
        | durable n2 c2 => cases h; exact Or.inl rfl
    | durable n cached =>
      simp only [insert_mut, mut_ephemeral_links] at h
      cases hg : get_links s pref n cached with
      | error e2 =>
        simp only [hg] at h
        cases h
        exact Or.inr ⟨pref, n, get_links_error s pref n cached e hg⟩
      | ok links =>
        simp only [hg] at h
        cases hcg : child_get links c with
        | none => simp [hcg] at h
        | some child =>
          simp only [hcg] at h
          cases child with
          | leaf m2 => simp at h
          | ephemeral l2 => cases h; exact Or.inl rfl
          | durable n2 c2 => cases h; exact Or.inl rfl
  | cons a rest ih =>
    intro pref cur c meta e h
    cases cur with
    | leaf m =>
      simp only [insert_mut, mut_ephemeral_links] at h
      cases h
      exact Or.inl rfl
    | ephemeral links =>
      simp only [insert_mut, mut_ephemeral_links] at h
      cases hm : insert_mut s (pref ++ [a])
          ((child_get links a).getD (Link.ephemeral [])) rest c meta with
      | error e2 =>
        simp only [hm] at h
        cases h
        exact ih _ _ _ _ _ hm
      | ok child2 => simp [hm] at h
    | durable n cached =>
      simp only [insert_mut, mut_ephemeral_links] at h
      cases hg : get_links s pref n cached with
      | error e2 =>
        simp only [hg] at h
        cases h
        exact Or.inr ⟨pref, n, get_links_error s pref n cached e hg⟩
      | ok links =>
        simp only [hg] at h
        cases hm : insert_mut s (pref ++ [a])
            ((child_get links a).getD (Link.ephemeral [])) rest c meta with
        | error e2 =>
          simp only [hm] at h
          cases h
          exact ih _ _ _ _ _ hm
        | ok child2 => simp [hm] at h

/-- A `found` outcome of the checking walk matches a successful
`get_link` of the same link. -/
lemma get_of_check_found (s : Store) :
    ∀ (p pref : Path) (cur l : Link),
    insert_check s pref cur p = Except.ok (InsertCheck.found l) →
    get_link_aux s pref cur p = Except.ok (some l) := by
  intro p
  induction p with
  | nil =>
    intro pref cur l h
    simp only [insert_check, Except.ok.injEq, InsertCheck.found.injEq] at h
    simp [get_link_aux, h]
  | cons comp rest ih =>
    intro pref cur l h
    cases cur with
    | leaf m => simp [insert_check] at h
    | ephemeral links =>
      cases hcg : child_get links comp with
      | none => simp [insert_check, hcg] at h
      | some child =>
        simp only [insert_check, hcg] at h
        simp only [get_link_aux, hcg]
        exact ih _ _ _ h
    | durable n cached =>
      cases hg : get_links s pref n cached with
      | error e => simp [insert_check, hg] at h
      | ok links =>
        simp only [insert_check, hg] at h
        simp only [get_link_aux, hg]
        cases hcg : child_get links comp with
        | none => simp [hcg] at h
        | some child =>
          simp only [hcg] at h
          exact ih _ _ _ h

/-- Reaching a leaf after `p1` makes the checking walk of any strictly
longer path fail over to `conflictFile` at that very position. -/
lemma check_conflict_of_leaf (s : Store) :
    ∀ (p1 pref : Path) (cur : Link) (m : FileMetadata) (c : Component) (rest2 : Path),
    get_link_aux s pref cur p1 = Except.ok (some (Link.leaf m)) →
    insert_check s pref cur (p1 ++ c :: rest2) =
      Except.ok (InsertCheck.conflictFile (pref ++ p1)) := by
  intro p1
  induction p1 with
  | nil =>
    intro pref cur m c rest2 h
    simp only [get_link_aux, Except.ok.injEq, Option.some.injEq] at h
    subst h
    simp [insert_check]
  | cons a rest ih =>
    intro pref cur m c rest2 h
    cases cur with
    | leaf m2 => simp [get_link_aux] at h
    | ephemeral links =>
      cases hcg : child_get links a with
      | none => simp [get_link_aux, hcg] at h
      | some child =>
        simp only [get_link_aux, hcg] at h
        have hr := ih (pref ++ [a]) child m c rest2 h
        simp only [List.cons_append, insert_check, hcg]
        simpa [List.append_assoc] using hr
    | durable n cached =>
      cases hg : get_links s pref n cached with
      | error e => simp [get_link_aux, hg] at h
      | ok links =>
        cases hcg : child_get links a with
        | none => simp [get_link_aux, hg, hcg] at h
        | some child =>
          simp only [get_link_aux, hg, hcg] at h
          have hr := ih (pref ++ [a]) child m c rest2 h
          simp only [List.cons_append, insert_check, hg, hcg]
          simpa [List.append_assoc] using hr

/-- A `conflictFile` outcome of the checking walk pins a leaf at a
strict position of the path. -/
lemma check_conflict_inv (s : Store) :
    ∀ (p pref : Path) (cur : Link) (q : Path),
    insert_check s pref cur p = Except.ok (InsertCheck.conflictFile q) →
    ∃ p1 c p2 m, p = p1 ++ c :: p2 ∧ q = pref ++ p1 ∧
      get_link_aux s pref cur p1 = Except.ok (some (Link.leaf m)) := by
  intro p
  induction p with
  | nil => intro pref cur q h; simp [insert_check] at h
  | cons comp rest ih =>
    intro pref cur q h
    cases cur with
    | leaf m =>
      simp only [insert_check, Except.ok.injEq] at h
      cases h
      exact ⟨[], comp, rest, m, rfl, by simp, by simp [get_link_aux]⟩
    | ephemeral links =>
      cases hcg : child_get links comp with
      | none => simp [insert_check, hcg] at h
      | some child =>
        simp only [insert_check, hcg] at h
        obtain ⟨p1, c, p2, m, h1, h2, h3⟩ := ih (pref ++ [comp]) child q h
        refine ⟨comp :: p1, c, p2, m, by simp [h1], ?_, ?_⟩
        · rw [h2]; simp
        · simp [get_link_aux, hcg, h3]
    | durable n cached =>
      cases hg : get_links s pref n cached with
      | error e => simp [insert_check, hg] at h
      | ok links =>
        cases hcg : child_get links comp with
        | none => simp [insert_check, hg, hcg] at h
        | some child =>
          simp only [insert_check, hg, hcg] at h
          obtain ⟨p1, c, p2, m, h1, h2, h3⟩ := ih (pref ++ [comp]) child q h
          refine ⟨comp :: p1, c, p2, m, by simp [h1], ?_, ?_⟩
          · rw [h2]; simp
          · simp [get_link_aux, hg, hcg, h3]

/-- A `get` returning a directory pins the underlying link to a
non-leaf. -/
lemma get_dir_link (t : Tree) (p : Path)
    (h : get t p = Except.ok (some FsNode.directory)) :
    ∃ l, get_link t p = Except.ok (some l) ∧ ∀ m, l ≠ Link.leaf m := by
  unfold get at h
  cases hg : get_link t p with
  | error e => rw [hg] at h; exact absurd h (by simp)
  | ok r =>
    rw [hg] at h
    cases r with
    | none => simp at h
    | some l =>
      cases l with
      | leaf m2 => simp at h
      | ephemeral links => exact ⟨Link.ephemeral links, rfl, by intro m hh; cases hh⟩
      | durable n c => exact ⟨Link.durable n c, rfl, by intro m hh; cases hh⟩

/-- The mutating walk never produces a conflict error. -/
lemma insert_mut_no_conflict (s : Store) (p1 pref : Path) (cur : Link) (c : Component)
    (meta : FileMetadata) (q q2 : Path) :
    insert_mut s pref cur p1 c meta ≠ Except.error (TreeError.fileConflict q q2) ∧
    insert_mut s pref cur p1 c meta ≠ Except.error (TreeError.dirConflict q) := by
  constructor <;> intro h <;>
    rcases insert_mut_error s p1 pref cur c meta _ h with h1 | ⟨a, b, h1⟩ <;> cases h1

/-- Concrete tree witnessing the conflict characterization: one file at
`f/g`. -/
def c7T : Tree :=
  ⟨[], Link.ephemeral [([102], Link.ephemeral [([103], Link.leaf ⟨10, FileType.regular⟩)])]⟩

/-- Claim C7: `insert` fails with a file conflict exactly when a strict
position of the path holds an existing file, fails with a directory
conflict exactly when the path itself holds an existing directory, and
is the identity when the path holds a file with the same metadata. -/
theorem claim_C7_insert_conflict_characterization (t : Tree) (path : Path)
    (meta : FileMetadata) :
    ((∃ pfx, insert t path meta = Except.error (TreeError.fileConflict path pfx)) ↔
      (∃ pfx m rest, rest ≠ [] ∧ path = pfx ++ rest ∧
        get t pfx = Except.ok (some (FsNode.file m)))) ∧
    (insert t path meta = Except.error (TreeError.dirConflict path) ↔
      get t path = Except.ok (some FsNode.directory)) ∧
    (get t path = Except.ok (some (FsNode.file meta)) →
      insert t path meta = Except.ok t) := by
  refine ⟨⟨?_, ?_⟩, ⟨?_, ?_⟩, ?_⟩
  · rintro ⟨pfx, h⟩
    cases hc : insert_check t.store [] t.root path with
    | error e =>
      simp only [insert, hc] at h
      cases h
      obtain ⟨q, n, he⟩ := insert_check_error t.store path [] t.root _ hc
      cases he
    | ok v =>
      cases v with
      | conflictFile q =>
        obtain ⟨p1, c, p2, m, h1, h2, h3⟩ := check_conflict_inv t.store path [] t.root q hc
        refine ⟨p1, m, c :: p2, by simp, h1, ?_⟩
        simp only [get, get_link]
        have h3x : get_link_aux t.store [] t.root p1 =
            Except.ok (some (Link.leaf m)) := h3
        simp [h3x]
      | missing =>
        simp only [insert, hc] at h
        cases hsp : split_last path with
        | none => simp only [hsp] at h; cases h
        | some pr =>
          simp only [hsp] at h
          cases hm : insert_mut t.store [] t.root pr.1 pr.2 meta with
          | error e =>
            simp only [hm] at h
            cases h
            exact absurd hm (insert_mut_no_conflict t.store pr.1 [] t.root pr.2 meta path pfx).1
          | ok root2 => simp only [hm] at h; cases h
      | found l =>
        cases l with
        | leaf m =>
          simp only [insert, hc] at h
          cases hbq : (m == meta) with
          | true => simp only [hbq, if_true] at h; cases h
          | false =>
            simp only [hbq, Bool.false_eq_true, if_false] at h
            cases hsp : split_last path with
            | none => simp only [hsp] at h; cases h
            | some pr =>
              simp only [hsp] at h
              cases hm : insert_mut t.store [] t.root pr.1 pr.2 meta with
              | error e =>
                simp only [hm] at h
                cases h
                exact absurd hm
                  (insert_mut_no_conflict t.store pr.1 [] t.root pr.2 meta path pfx).1
              | ok root2 => simp only [hm] at h; cases h
        | ephemeral links => simp only [insert, hc] at h; cases h
        | durable n cached => simp only [insert, hc] at h; cases h
  · rintro ⟨pfx, m, rest, hrne, hsplit, hget⟩
    obtain ⟨c, rest2, rfl⟩ : ∃ c rest2, rest = c :: rest2 := by
      cases rest with
      | nil => exact absurd rfl hrne
      | cons c r2 => exact ⟨c, r2, rfl⟩
    have hlink := get_file_link t pfx m hget
    have hcc := check_conflict_of_leaf t.store pfx [] t.root m c rest2 hlink
    refine ⟨pfx, ?_⟩
    subst hsplit
    simp [insert, hcc]
  · intro h
    cases hc : insert_check t.store [] t.root path with
    | error e =>
      simp only [insert, hc] at h
      cases h
      obtain ⟨q, n, he⟩ := insert_check_error t.store path [] t.root _ hc
      cases he
    | ok v =>
      cases v with
      | conflictFile q => simp only [insert, hc] at h; cases h
      | missing =>
        simp only [insert, hc] at h
        cases hsp : split_last path with
        | none => simp only [hsp] at h; cases h
        | some pr =>
          simp only [hsp] at h
          cases hm : insert_mut t.store [] t.root pr.1 pr.2 meta with
          | error e =>
            simp only [hm] at h
            cases h
            exact absurd hm
              (insert_mut_no_conflict t.store pr.1 [] t.root pr.2 meta path path).2
          | ok root2 => simp only [hm] at h; cases h
      | found l =>
        cases l with
        | leaf m =>
          simp only [insert, hc] at h
          cases hbq : (m == meta) with
          | true => simp only [hbq, if_true] at h; cases h
          | false =>
            simp only [hbq, Bool.false_eq_true, if_false] at h
            cases hsp : split_last path with
            | none => simp only [hsp] at h; cases h
            | some pr =>
              simp only [hsp] at h
              cases hm : insert_mut t.store [] t.root pr.1 pr.2 meta with
              | error e =>
                simp only [hm] at h
                cases h
                exact absurd hm
                  (insert_mut_no_conflict t.store pr.1 [] t.root pr.2 meta path path).2
              | ok root2 => simp only [hm] at h; cases h
        | ephemeral links =>
          have hgl := get_of_check_found t.store path [] t.root _ hc
          simp only [get, get_link]
          have hgx : get_link_aux t.store [] t.root path =
              Except.ok (some (Link.ephemeral links)) := hgl
          simp [hgx]
        | durable n cached =>
          have hgl := get_of_check_found t.store path [] t.root _ hc
          simp only [get, get_link]
          have hgx : get_link_aux t.store [] t.root path =
              Except.ok (some (Link.durable n cached)) := hgl
          simp [hgx]
  · intro h
    obtain ⟨l, hl, hnl⟩ := get_dir_link t path h
    have hc := check_of_get_some t.store path [] t.root l hl
    cases l with
    | leaf m => exact absurd rfl (hnl m)
    | ephemeral links => simp [insert, hc]
    | durable n cached => simp [insert, hc]
  · intro h
    have hlink := get_file_link t path meta h
    have hc := check_of_get_some t.store path [] t.root _ hlink
    simp [insert, hc]

/-- Witness for C7 at a concrete tree, path and metadata. -/
theorem claim_C7_witness :
    ((∃ pfx, insert c7T [[102], [103]] ⟨11, FileType.regular⟩ =
        Except.error (TreeError.fileConflict [[102], [103]] pfx)) ↔
      (∃ pfx m rest, rest ≠ [] ∧ [[102], [103]] = pfx ++ rest ∧
        get c7T pfx = Except.ok (some (FsNode.file m)))) ∧
    (insert c7T [[102], [103]] ⟨11, FileType.regular⟩ =
        Except.error (TreeError.dirConflict [[102], [103]]) ↔
      get c7T [[102], [103]] = Except.ok (some FsNode.directory)) ∧
    (get c7T [[102], [103]] = Except.ok (some (FsNode.file ⟨11, FileType.regular⟩)) →
      insert c7T [[102], [103]] ⟨11, FileType.regular⟩ = Except.ok c7T) :=
  claim_C7_insert_conflict_characterization c7T [[102], [103]] ⟨11, FileType.regular⟩

/-- The finalize executor threads the store through unchanged: no branch
of `fin_work`, `fin_finish` or `fin_children` ever inserts into it. -/
lemma fin_store_all : ∀ fuel : Nat,
    (∀ s pref link actives n fl tups l2 s2,
      fin_work s fuel pref link actives = Except.ok (n, fl, tups, l2, s2) → s2 = s) ∧
    (∀ s pref pn actives links n fl tups l2 s2,
      fin_finish s fuel pref pn actives links = Except.ok (n, fl, tups, l2, s2) → s2 = s) ∧
    (∀ s pref actives links es tups ls s2,
      fin_children s fuel pref actives links = Except.ok (es, tups, ls, s2) → s2 = s) := by
  intro fuel
  induction fuel with
  | zero =>
    refine ⟨?_, ?_, ?_⟩
    · intro s pref link actives n fl tups l2 s2 h; simp [fin_work] at h
    · intro s pref pn actives links n fl tups l2 s2 h; simp [fin_finish] at h
    · intro s pref actives links es tups ls s2 h; simp [fin_children] at h
  | succ f ih =>
    obtain ⟨ihw, ihf, ihc⟩ := ih
    refine ⟨?_, ?_, ?_⟩
    · intro s pref link actives n fl tups l2 s2 h
      simp only [fin_work] at h
      cases han : active_nodes actives with
      | error e => simp only [han] at h; cases h
      | ok pn =>
        simp only [han] at h
        cases link with
        | durable n0 cached =>
          simp only [] at h
          by_cases hmem : n0 ∈ pn
          · rw [if_pos hmem] at h
            simp only [Except.ok.injEq, Prod.mk.injEq] at h
            exact h.2.2.2.2.symm
          · rw [if_neg hmem] at h
            cases hg : get_links s pref n0 cached with
            | error e => simp only [hg] at h; cases h
            | ok links =>
              simp only [hg] at h
              exact ihf s pref pn actives links n fl tups l2 s2 h
        | leaf m =>
          simp only [Except.ok.injEq, Prod.mk.injEq] at h
          exact h.2.2.2.2.symm
        | ephemeral links =>
          simp only [] at h
          exact ihf s pref pn actives links n fl tups l2 s2 h
    · intro s pref pn actives links n fl tups l2 s2 h
      simp only [fin_finish] at h
      cases hc : fin_children s f pref actives links with
      | error e => simp only [hc] at h; cases h
      | ok r =>
        obtain ⟨es, tups2, ls, s3⟩ := r
        simp only [hc, Except.ok.injEq, Prod.mk.injEq] at h
        have h3 := ihc s pref actives links es tups2 ls s3 hc
        rw [← h.2.2.2.2]
        exact h3
    · intro s pref actives links es tups ls s2 h
      cases links with
      | nil =>
        simp only [fin_children, Except.ok.injEq, Prod.mk.injEq] at h
        exact h.2.2.2.symm
      | cons e rest =>
        obtain ⟨c, l⟩ := e
        simp only [fin_children] at h
        cases hca : collect_actives s pref c actives with
        | error er => simp only [hca] at h; cases h
        | ok childActs =>
          simp only [hca] at h
          cases hw : fin_work s f (pref ++ [c]) l childActs with
          | error er => simp only [hw] at h; cases h
          | ok r =>
            obtain ⟨n, fl, tups1, l2, s2a⟩ := r
            simp only [hw] at h
            cases hc2 : fin_children s2a f pref actives rest with
            | error er => simp only [hc2] at h; cases h
            | ok r2 =>
              obtain ⟨es2, tups2, ls2, s3⟩ := r2
              simp only [hc2, Except.ok.injEq, Prod.mk.injEq] at h
              have e1 := ihw s (pref ++ [c]) l childActs n fl tups1 l2 s2a hw
              have e2 := ihc s2a pref actives rest es2 tups2 ls2 s3 hc2
              rw [← h.2.2.2]
              rw [e2, e1]

/-- Claim C2 (amended): `finalize` returns the changed-directory tuples
but inserts nothing into the blob store — the store of the returned tree
is exactly the input store. -/
theorem claim_C2_amended (t : Tree) (parents : List Tree) (fuel : Nat)
    (tuples : List FTuple) (t2 : Tree)
    (h : finalize t parents fuel = Except.ok (tuples, t2)) :
    t2.store = t.store := by
  unfold finalize at h
  cases hw : fin_work t.store fuel [] t.root (parents.map (fun p => p.root)) with
  | error e => simp [hw] at h
  | ok r =>
    obtain ⟨n, fl, tups, root2, s2⟩ := r
    simp only [hw, Except.ok.injEq, Prod.mk.injEq] at h
    have hs := (fin_store_all fuel).1 t.store [] t.root _ n fl tups root2 s2 hw
    rw [← h.2]
    exact hs

/-- Root hash of the single flushed parent used in the C2 scenario. -/
def c2PN : Nat := 390080767865755247426360213603680732597680604596

/-- A flushed parent tree holding one file `f`. -/
def c2P : Tree :=
  ⟨[([], c2PN, [⟨[102], 10, Flag.file FileType.regular⟩])],
   Link.durable c2PN (some [([102], Link.leaf ⟨10, FileType.regular⟩)])⟩

/-- The child tree: the parent's file plus a new file `b`, unflushed. -/
def c2T : Tree :=
  ⟨c2P.store,
   Link.ephemeral [([98], Link.leaf ⟨12, FileType.regular⟩),
     ([102], Link.leaf ⟨10, FileType.regular⟩)]⟩

/-- The serialized entry of the changed root directory in the C2 scenario. -/
def c2Entry : Entry :=
  [⟨[98], 12, Flag.file FileType.regular⟩, ⟨[102], 10, Flag.file FileType.regular⟩]

/-- Hash of the changed root directory in the C2 scenario. -/
def c2Node : Nat := 343235432499881633990549065499119687457864746660

/-- The tree `finalize` returns in the C2 scenario. -/
def c2T2 : Tree :=
  ⟨c2T.store,
   Link.durable c2Node (some [([98], Link.leaf ⟨12, FileType.regular⟩),
     ([102], Link.leaf ⟨10, FileType.regular⟩)])⟩

set_option maxRecDepth 100000 in
/-- Counterexample to C2 as stated: `finalize` records a tuple for the
changed root directory, yet the blob store is untouched and looking the
tuple's key up in it fails. -/
theorem claim_C2_counterexample :
    finalize c2T [c2P] 20 =
      Except.ok ([⟨[], c2Node, entryBytes c2Entry, c2PN, nullId⟩], c2T2) ∧
    c2T2.store = c2T.store ∧
    store_get c2T2.store [] c2Node =
      Except.error (TreeError.blobNotFound [] c2Node) :=
  ⟨by rfl, rfl, by rfl⟩

set_option maxRecDepth 100000 in
/-- Witness for the amended C2 on the concrete scenario. -/
theorem claim_C2_witness : c2T2.store = c2T.store :=
  claim_C2_amended c2T [c2P] 20 [⟨[], c2Node, entryBytes c2Entry, c2PN, nullId⟩] c2T2
    (by rfl)

/-- Shape of `compat_work` results: the requested directory's triple is
last, everything before it lies strictly below the requested path, every
returned path is at most `dr` levels below the requested one, and a
zero depth remainder yields only the requested triple.  The companion
statement bounds every `compat_children` result strictly below the
current path and at most `k + 1` levels deep. -/
lemma compat_shape_all : ∀ fuel : Nat,
    (∀ s dr p node others r,
      compat_work fuel s dr p node others = Except.ok r →
      ∃ entry pre, store_get s p node = Except.ok entry ∧
        r = pre ++ [(p, node, entryBytes entry)] ∧
        (∀ x ∈ pre, ∃ c q, x.1 = (p ++ [c]) ++ q) ∧
        (∀ x ∈ r, x.1.length ≤ p.length + dr) ∧
        (dr = 0 → pre = [])) ∧
    (∀ s k p omap es r,
      compat_children fuel s k p omap es = Except.ok r →
      ∀ x ∈ r, (∃ c q, x.1 = (p ++ [c]) ++ q) ∧
        x.1.length ≤ p.length + 1 + k) := by
  intro fuel
  induction fuel with
  | zero =>
    constructor
    · intro s dr p node others r h; simp [compat_work] at h
    · intro s k p omap es r h; simp [compat_children] at h
  | succ f ih =>
    obtain ⟨ihw, ihc⟩ := ih
    constructor
    · intro s dr p node others r h
      simp only [compat_work] at h
      cases hg : store_get s p node with
      | error e => simp only [hg] at h; cases h
      | ok entry =>
        simp only [hg] at h
        cases dr with
        | zero =>
          simp only [Except.ok.injEq] at h
          refine ⟨entry, [], rfl, h.symm, by simp, ?_, fun _ => rfl⟩
          intro x hx
          rw [← h] at hx
          rw [List.mem_singleton] at hx
          subst hx
          simp
        | succ dr2 =>
          cases hb : build_others_map s p others [] with
          | error e => simp only [hb] at h; cases h
          | ok omap =>
            simp only [hb] at h
            cases hc : compat_children f s dr2 p omap entry with
            | error e => simp only [hc] at h; cases h
            | ok children =>
              simp only [hc, Except.ok.injEq] at h
              refine ⟨entry, children, rfl, h.symm, ?_, ?_, ?_⟩
              · intro x hx
                exact ((ihc s dr2 p omap entry children hc) x hx).1
              · intro x hx
                rw [← h] at hx
                rcases List.mem_append.mp hx with hx1 | hx2
                · have hb2 := ((ihc s dr2 p omap entry children hc) x hx1).2
                  omega
                · have hxx : x = (p, node, entryBytes entry) := by simpa using hx2
                  rw [hxx]
                  simp
              · intro h0; cases h0
    · intro s k p omap es r h
      cases es with
      | nil =>
        simp only [compat_children, Except.ok.injEq] at h
        subst h
        intro x hx; cases hx
      | cons e rest =>
        simp only [compat_children] at h
        cases hfl : (e.flag != Flag.directory) with
        | true =>
          rw [hfl] at h
          simp only [if_true] at h
          exact ihc s k p omap rest r h
        | false =>
          rw [hfl] at h
          simp only [Bool.false_eq_true, if_false] at h
          cases homr : omap_remove omap e.component with
          | mk others2 omap2 =>
            simp only [homr] at h
            by_cases hmem : e.node ∈ others2
            · rw [if_pos hmem] at h
              exact ihc s k p omap2 rest r h
            · rw [if_neg hmem] at h
              cases hw : compat_work f s k (p ++ [e.component]) e.node
                  (dedup_consecutive others2) with
              | error er => simp only [hw] at h; cases h
              | ok sub =>
                simp only [hw] at h
                cases hcr : compat_children f s k p omap2 rest with
                | error er => simp only [hcr] at h; cases h
                | ok restR =>
                  simp only [hcr, Except.ok.injEq] at h
                  subst h
                  intro x hx
                  rcases List.mem_append.mp hx with hx1 | hx2
                  · obtain ⟨entry2, pre2, _, hr2, hbelow, hdep, _⟩ :=
                      ihw s k (p ++ [e.component]) e.node (dedup_consecutive others2) sub hw
                    constructor
                    · subst hr2
                      rcases List.mem_append.mp hx1 with hy1 | hy2
                      · obtain ⟨c2, q2, hq⟩ := hbelow x hy1
                        exact ⟨e.component, [c2] ++ q2, by
                          rw [hq]; simp [List.append_assoc]⟩
                      · have hxx : x = ((p ++ [e.component]), e.node, entryBytes entry2) := by
                          simpa using hy2
                        exact ⟨e.component, [], by rw [hxx]; simp⟩
                    · have hd := hdep x hx1
                      rw [List.length_append, List.length_singleton] at hd
                      omega
                  · exact ihc s k p omap2 rest restR hcr x hx2

/-- Claim C8: `compat_subtree_diff` returns nothing when the peer has
the node; otherwise its result ends with the requested directory's
`(path, node, entry_bytes)` triple, everything before that lies strictly
below the requested path, recursion is limited to `depth` levels (every
returned path is at most `depth - 1` levels below the requested one),
and `depth = 1` yields only the requested triple. -/
theorem claim_C8_compat_subtree_diff (s : Store) (p : Path) (node : Nat)
    (others : List Nat) (depth : Int) (fuel : Nat) :
    (node ∈ others → compat_subtree_diff s p node others depth fuel = Except.ok []) ∧
    (∀ r, node ∉ others →
      compat_subtree_diff s p node others depth fuel = Except.ok r →
      ∃ entry pre, store_get s p node = Except.ok entry ∧
        r = pre ++ [(p, node, entryBytes entry)] ∧
        (∀ x ∈ pre, ∃ c q, x.1 = (p ++ [c]) ++ q) ∧
        (∀ x ∈ r, x.1.length ≤ p.length + (depth - 1).toNat) ∧
        (depth ≤ 1 → pre = [])) := by
  constructor
  · intro hmem
    simp [compat_subtree_diff, hmem]
  · intro r hmem h
    rw [compat_subtree_diff, if_neg hmem] at h
    obtain ⟨entry, pre, h1, h2, h3, h4, h5⟩ :=
      (compat_shape_all fuel).1 s (depth - 1).toNat p node others r h
    refine ⟨entry, pre, h1, h2, h3, h4, ?_⟩
    intro hd
    exact h5 (by omega)

/-- Store of the C8 witness scenario: a root directory holding one file. -/
def c8S : Store := [([], 77, [⟨[102], 10, Flag.file FileType.regular⟩])]

/-- Witness for C8 at a concrete store, node and depth. -/
theorem claim_C8_witness :
    (77 ∈ ([] : List Nat) → compat_subtree_diff c8S [] 77 [] 3 20 = Except.ok []) ∧
    (∀ r, 77 ∉ ([] : List Nat) →
      compat_subtree_diff c8S [] 77 [] 3 20 = Except.ok r →
      ∃ entry pre, store_get c8S [] 77 = Except.ok entry ∧
        r = pre ++ [([], 77, entryBytes entry)] ∧
        (∀ x ∈ pre, ∃ c q, x.1 = (([] : Path) ++ [c]) ++ q) ∧
        (∀ x ∈ r, x.1.length ≤ ([] : Path).length + ((3 : Int) - 1).toNat) ∧
        ((3 : Int) ≤ 1 → pre = [])) :=
  claim_C8_compat_subtree_diff c8S [] 77 [] 3 20

/-- First active parent of the C3 scenario (root hash 1). -/
def c3Pa : Tree := ⟨[], Link.durable 1 (some [])⟩

/-- Second active parent of the C3 scenario (root hash 2). -/
def c3Pb : Tree := ⟨[], Link.durable 2 (some [])⟩

/-- Third active parent of the C3 scenario (root hash 3). -/
def c3Pc : Tree := ⟨[], Link.durable 3 (some [])⟩

/-- The C3 child tree: a single new file, so the root changes relative
to every parent. -/
def c3T : Tree := ⟨[], Link.ephemeral [([102], Link.leaf ⟨13, FileType.regular⟩)]⟩

set_option maxRecDepth 100000 in
/-- Counterexample to the permutation half of C3: with three active
parents, swapping the last two changes which pair of parent hashes is
mixed into the directory hash, so the same tree finalizes to different
hashes. -/
theorem claim_C3_counterexample :
    ∃ tu1 tu2 t1 t2,
      finalize c3T [c3Pa, c3Pb, c3Pc] 20 = Except.ok ([tu1], t1) ∧
      finalize c3T [c3Pa, c3Pc, c3Pb] 20 = Except.ok ([tu2], t2) ∧
      tu1.path = tu2.path ∧ tu1.bytes = tu2.bytes ∧ tu1.node ≠ tu2.node := by
  refine ⟨⟨[], 279782517972694095827324637031729410866609012562,
      entryBytes [⟨[102], 13, Flag.file FileType.regular⟩], 1, 2⟩,
    ⟨[], 334837662195938137070719612584903322492878071907,
      entryBytes [⟨[102], 13, Flag.file FileType.regular⟩], 1, 3⟩,
    ⟨[], Link.durable 279782517972694095827324637031729410866609012562
      (some [([102], Link.leaf ⟨13, FileType.regular⟩)])⟩,
    ⟨[], Link.durable 334837662195938137070719612584903322492878071907
      (some [([102], Link.leaf ⟨13, FileType.regular⟩)])⟩,
    by rfl, by rfl, rfl, rfl, by decide⟩

/-- The `compute_node` of `finalize` expressed through `min` and `max`. -/
lemma compute_node_min_max (pn : List Nat) (b : Bytes) :
    compute_node_finalize pn b =
      sha1 (hashBytes (min (pn.getD 0 nullId) (pn.getD 1 nullId)) ++
        hashBytes (max (pn.getD 0 nullId) (pn.getD 1 nullId)) ++ b) := by
  unfold compute_node_finalize
  rcases Nat.lt_trichotomy (pn.getD 0 nullId) (pn.getD 1 nullId) with h | h | h
  · rw [if_pos h, Nat.min_eq_left (Nat.le_of_lt h), Nat.max_eq_right (Nat.le_of_lt h)]
  · rw [if_neg (by omega), h, Nat.min_self, Nat.max_self]
  · rw [if_neg (by omega), Nat.min_eq_right (Nat.le_of_lt h),
      Nat.max_eq_left (Nat.le_of_lt h)]

/-- Every tuple produced by the finalize executor obeys the sorted
parent-mixing hash rule. -/
lemma fin_tuples_rule : ∀ fuel : Nat,
    (∀ s pref link actives n fl tups l2 s2,
      fin_work s fuel pref link actives = Except.ok (n, fl, tups, l2, s2) →
      ∀ tu ∈ tups, tu.node =
        sha1 (hashBytes (min tu.p1 tu.p2) ++ hashBytes (max tu.p1 tu.p2) ++ tu.bytes)) ∧
    (∀ s pref pn actives links n fl tups l2 s2,
      fin_finish s fuel pref pn actives links = Except.ok (n, fl, tups, l2, s2) →
      ∀ tu ∈ tups, tu.node =
        sha1 (hashBytes (min tu.p1 tu.p2) ++ hashBytes (max tu.p1 tu.p2) ++ tu.bytes)) ∧
    (∀ s pref actives links es tups ls s2,
      fin_children s fuel pref actives links = Except.ok (es, tups, ls, s2) →
      ∀ tu ∈ tups, tu.node =
        sha1 (hashBytes (min tu.p1 tu.p2) ++ hashBytes (max tu.p1 tu.p2) ++ tu.bytes)) := by
  intro fuel
  induction fuel with
  | zero =>
    refine ⟨?_, ?_, ?_⟩
    · intro s pref link actives n fl tups l2 s2 h; simp [fin_work] at h
    · intro s pref pn actives links n fl tups l2 s2 h; simp [fin_finish] at h
    · intro s pref actives links es tups ls s2 h; simp [fin_children] at h
  | succ f ih =>
    obtain ⟨ihw, ihf, ihc⟩ := ih
    refine ⟨?_, ?_, ?_⟩
    · intro s pref link actives n fl tups l2 s2 h
      simp only [fin_work] at h
      cases han : active_nodes actives with
      | error e => simp only [han] at h; cases h
      | ok pn =>
        simp only [han] at h
        cases link with
        | durable n0 cached =>
          simp only [] at h
          by_cases hmem : n0 ∈ pn
          · rw [if_pos hmem] at h
            simp only [Except.ok.injEq, Prod.mk.injEq] at h
            intro tu htu
            rw [← h.2.2.1] at htu
            cases htu
          · rw [if_neg hmem] at h
            cases hg : get_links s pref n0 cached with
            | error e => simp only [hg] at h; cases h
            | ok links => simp only [hg] at h; exact ihf s pref pn actives links n fl tups l2 s2 h
        | leaf m =>
          simp only [Except.ok.injEq, Prod.mk.injEq] at h
          intro tu htu
          rw [← h.2.2.1] at htu
          cases htu
        | ephemeral links =>
          simp only [] at h
          exact ihf s pref pn actives links n fl tups l2 s2 h
    · intro s pref pn actives links n fl tups l2 s2 h
      simp only [fin_finish] at h
      cases hc : fin_children s f pref actives links with
      | error e => simp only [hc] at h; cases h
      | ok r =>
        obtain ⟨es, tups2, ls, s3⟩ := r
        simp only [hc, Except.ok.injEq, Prod.mk.injEq] at h
        intro tu htu
        rw [← h.2.2.1] at htu
        rcases List.mem_append.mp htu with h1 | h2
        · exact ihc s pref actives links es tups2 ls s3 hc tu h1
        · have htu2 : tu = ⟨pref, compute_node_finalize pn (entryBytes es),
              entryBytes es, pn.getD 0 nullId, pn.getD 1 nullId⟩ := by
            simpa using h2
          rw [htu2]
          exact compute_node_min_max pn (entryBytes es)
    · intro s pref actives links es tups ls s2 h
      cases links with
      | nil =>
        simp only [fin_children, Except.ok.injEq, Prod.mk.injEq] at h
        intro tu htu
        rw [← h.2.1] at htu
        cases htu
      | cons e rest =>
        obtain ⟨c, l⟩ := e
        simp only [fin_children] at h
        cases hca : collect_actives s pref c actives with
        | error er => simp only [hca] at h; cases h
        | ok childActs =>
          simp only [hca] at h
          cases hw : fin_work s f (pref ++ [c]) l childActs with
          | error er => simp only [hw] at h; cases h
          | ok r =>
            obtain ⟨n, fl, tups1, l2, s2a⟩ := r
            simp only [hw] at h
            cases hc2 : fin_children s2a f pref actives rest with
            | error er => simp only [hc2] at h; cases h
            | ok r2 =>
              obtain ⟨es2, tups2, ls2, s3⟩ := r2
              simp only [hc2, Except.ok.injEq, Prod.mk.injEq] at h
              intro tu htu
              rw [← h.2.1] at htu
              rcases List.mem_append.mp htu with h1 | h2
              · exact ihw s (pref ++ [c]) l childActs n fl tups1 l2 s2a hw tu h1
              · exact ihc s2a pref actives rest es2 tups2 ls2 s3 hc2 tu h2

/-- Projection of a finalize tuple to its path, hash and bytes (the
parts the permutation claim is about). -/
def ftProj (tu : FTuple) : Path × Nat × Bytes := (tu.path, tu.node, tu.bytes)

/-- Reversing at most two active parents reverses their hash list. -/
lemma active_nodes_swap (actives : List Link) (pn : List Nat)
    (hlen : actives.length ≤ 2)
    (h : active_nodes actives = Except.ok pn) :
    active_nodes actives.reverse = Except.ok pn.reverse ∧ pn.length ≤ 2 := by
  match actives, hlen with
  | [], _ =>
    simp only [active_nodes, Except.ok.injEq] at h
    subst h
    exact ⟨rfl, by simp⟩
  | [x], _ =>
    cases x with
    | durable nx cx =>
      simp only [active_nodes, Except.ok.injEq] at h
      subst h
      exact ⟨rfl, by simp⟩
    | leaf m => simp [active_nodes] at h
    | ephemeral l => simp [active_nodes] at h
  | [x, y], _ =>
    cases x with
    | durable nx cx =>
      cases y with
      | durable ny cy =>
        simp only [active_nodes, Except.ok.injEq] at h
        subst h
        exact ⟨rfl, by simp⟩
      | leaf m => simp [active_nodes] at h
      | ephemeral l => simp [active_nodes] at h
    | leaf m => simp [active_nodes] at h
    | ephemeral l => simp [active_nodes] at h
  | _ :: _ :: _ :: _, hlen => simp [List.length_cons] at hlen

/-- With at most two parent hashes, the mixing rule is order-blind. -/
lemma compute_node_rev (pn : List Nat) (b : Bytes) (hlen : pn.length ≤ 2) :
    compute_node_finalize pn.reverse b = compute_node_finalize pn b := by
  match pn, hlen with
  | [], _ => rfl
  | [a], _ => rfl
  | [a, c], _ =>
    show compute_node_finalize [c, a] b = compute_node_finalize [a, c] b
    unfold compute_node_finalize
    simp only [List.getD_cons_zero, List.getD_cons_succ]
    rcases Nat.lt_trichotomy a c with h | h | h
    · rw [if_neg (by omega), if_pos h]
    · subst h
      rfl
    · rw [if_pos h, if_neg (by omega)]
  | _ :: _ :: _ :: _, hlen => simp [List.length_cons] at hlen

/-- Reversing at most two active parents reverses the refined active
set of a child, which is no longer than the parent set. -/
lemma collect_actives_swap (s : Store) (pref : Path) (c : Component)
    (actives ca : List Link) (hlen : actives.length ≤ 2)
    (h : collect_actives s pref c actives = Except.ok ca) :
    collect_actives s pref c actives.reverse = Except.ok ca.reverse ∧
      ca.length ≤ actives.length := by
  match actives, hlen with
  | [], _ =>
    simp only [collect_actives, Except.ok.injEq] at h
    subst h
    exact ⟨rfl, by simp⟩
  | [x], _ =>
    cases hx : child_active s pref c x with
    | error e => simp [collect_actives, hx] at h
    | ok ox =>
      simp only [collect_actives, hx] at h
      cases ox with
      | none =>
        simp only [Except.ok.injEq] at h
        subst h
        exact ⟨by simp [collect_actives, hx], by simp⟩
      | some lx =>
        simp only [Except.ok.injEq] at h
        subst h
        exact ⟨by simp [collect_actives, hx], by simp⟩
  | [x, y], _ =>
    cases hx : child_active s pref c x with
    | error e => simp [collect_actives, hx] at h
    | ok ox =>
      cases hy : child_active s pref c y with
      | error e => simp [collect_actives, hx, hy] at h
      | ok oy =>
        simp only [collect_actives, hx, hy] at h
        cases ox with
        | none =>
          cases oy with
          | none =>
            simp only [Except.ok.injEq] at h
            subst h
            exact ⟨by simp [collect_actives, hx, hy], by simp⟩
          | some ly =>
            simp only [Except.ok.injEq] at h
            subst h
            exact ⟨by simp [collect_actives, hx, hy], by simp⟩
        | some lx =>
          cases oy with
          | none =>
            simp only [Except.ok.injEq] at h
            subst h
            exact ⟨by simp [collect_actives, hx, hy], by simp⟩
          | some ly =>
            simp only [Except.ok.injEq] at h
            subst h
            exact ⟨by simp [collect_actives, hx, hy], by simp⟩
  | _ :: _ :: _ :: _, hlen => simp [List.length_cons] at hlen

/-- Reversing a two-or-fewer active parent list leaves every result of
the finalize executor unchanged except the recorded p1/p2 slots of the
tuples, whose path, hash and bytes projections agree. -/
lemma fin_swap_all : ∀ fuel : Nat,
    (∀ s pref link actives n fl tups l2 s2, actives.length ≤ 2 →
      fin_work s fuel pref link actives = Except.ok (n, fl, tups, l2, s2) →
      ∃ tups2, fin_work s fuel pref link actives.reverse =
          Except.ok (n, fl, tups2, l2, s2) ∧
        tups2.map ftProj = tups.map ftProj) ∧
    (∀ s pref pn actives links n fl tups l2 s2, pn.length ≤ 2 → actives.length ≤ 2 →
      fin_finish s fuel pref pn actives links = Except.ok (n, fl, tups, l2, s2) →
      ∃ tups2, fin_finish s fuel pref pn.reverse actives.reverse links =
          Except.ok (n, fl, tups2, l2, s2) ∧
        tups2.map ftProj = tups.map ftProj) ∧
    (∀ s pref actives links es tups ls s2, actives.length ≤ 2 →
      fin_children s fuel pref actives links = Except.ok (es, tups, ls, s2) →
      ∃ tups2, fin_children s fuel pref actives.reverse links =
          Except.ok (es, tups2, ls, s2) ∧
        tups2.map ftProj = tups.map ftProj) := by
  intro fuel
  induction fuel with
  | zero =>
    refine ⟨?_, ?_, ?_⟩
    · intro s pref link actives n fl tups l2 s2 _ h; simp [fin_work] at h
    · intro s pref pn actives links n fl tups l2 s2 _ _ h; simp [fin_finish] at h
    · intro s pref actives links es tups ls s2 _ h; simp [fin_children] at h
  | succ f ih =>
    obtain ⟨ihw, ihf, ihc⟩ := ih
    refine ⟨?_, ?_, ?_⟩
    · intro s pref link actives n fl tups l2 s2 hlen h
      simp only [fin_work] at h
      cases han : active_nodes actives with
      | error e => simp only [han] at h; cases h
      | ok pn =>
        obtain ⟨hrev, hpn⟩ := active_nodes_swap actives pn hlen han
        simp only [han] at h
        cases link with
        | leaf m =>
          simp only [] at h
          simp only [Except.ok.injEq, Prod.mk.injEq] at h
          obtain ⟨h1, h2, h3, h4, h5⟩ := h
          subst h1; subst h2; subst h3; subst h4; subst h5
          refine ⟨[], ?_, rfl⟩
          simp [fin_work, hrev]
        | durable n0 cached =>
          simp only [] at h
          by_cases hmem : n0 ∈ pn
          · rw [if_pos hmem] at h
            simp only [Except.ok.injEq, Prod.mk.injEq] at h
            obtain ⟨h1, h2, h3, h4, h5⟩ := h
            subst h1; subst h2; subst h3; subst h4; subst h5
            refine ⟨[], ?_, rfl⟩
            simp only [fin_work, hrev]
            rw [if_pos (List.mem_reverse.mpr hmem)]
          · rw [if_neg hmem] at h
            cases hg : get_links s pref n0 cached with
            | error e => simp only [hg] at h; cases h
            | ok links =>
              simp only [hg] at h
              obtain ⟨tups2, hfr, hmap⟩ :=
                ihf s pref pn actives links n fl tups l2 s2 hpn hlen h
              refine ⟨tups2, ?_, hmap⟩
              simp only [fin_work, hrev]
              rw [if_neg (fun hx => hmem (List.mem_reverse.mp hx))]
              simp only [hg]
              exact hfr
        | ephemeral links =>
          simp only [] at h
          obtain ⟨tups2, hfr, hmap⟩ :=
            ihf s pref pn actives links n fl tups l2 s2 hpn hlen h
          refine ⟨tups2, ?_, hmap⟩
          simp only [fin_work, hrev]
          exact hfr
    · intro s pref pn actives links n fl tups l2 s2 hpn hlen h
      simp only [fin_finish] at h
      cases hc : fin_children s f pref actives links with
      | error e => simp only [hc] at h; cases h
      | ok r =>
        obtain ⟨es, tupsc, ls, s3⟩ := r
        simp only [hc, Except.ok.injEq, Prod.mk.injEq] at h
        obtain ⟨h1, h2, h3, h4, h5⟩ := h
        subst h1; subst h2; subst h3; subst h4; subst h5
        obtain ⟨tupsr, hcr, hmap⟩ := ihc s pref actives links es tupsc ls s3 hlen hc
        refine ⟨tupsr ++ [⟨pref, compute_node_finalize pn.reverse (entryBytes es),
          entryBytes es, pn.reverse.getD 0 nullId, pn.reverse.getD 1 nullId⟩], ?_, ?_⟩
        · simp only [fin_finish, hcr]
          rw [compute_node_rev pn (entryBytes es) hpn]
        · simp only [List.map_append, hmap]
          rw [compute_node_rev pn (entryBytes es) hpn]
          simp [ftProj]
    · intro s pref actives links es tups ls s2 hlen h
      cases links with
      | nil =>
        simp only [fin_children, Except.ok.injEq, Prod.mk.injEq] at h
        obtain ⟨h1, h2, h3, h4⟩ := h
        subst h1; subst h2; subst h3; subst h4
        exact ⟨[], by simp [fin_children], rfl⟩
      | cons e rest =>
        obtain ⟨c, l⟩ := e
        simp only [fin_children] at h
        cases hca : collect_actives s pref c actives with
        | error er => simp only [hca] at h; cases h
        | ok childActs =>
          simp only [hca] at h
          cases hw : fin_work s f (pref ++ [c]) l childActs with
          | error er => simp only [hw] at h; cases h
          | ok r =>
            obtain ⟨nw, flw, tups1, lw, s2a⟩ := r
            simp only [hw] at h
            cases hc2 : fin_children s2a f pref actives rest with
            | error er => simp only [hc2] at h; cases h
            | ok r2 =>
              obtain ⟨es2, tups2c, ls2, s3⟩ := r2
              simp only [hc2, Except.ok.injEq, Prod.mk.injEq] at h
              obtain ⟨h1, h2, h3, h4⟩ := h
              subst h1; subst h2; subst h3; subst h4
              obtain ⟨hcarev, hlenc⟩ :=
                collect_actives_swap s pref c actives childActs hlen hca
              obtain ⟨tups1r, hwr, hmap1⟩ :=
                ihw s (pref ++ [c]) l childActs nw flw tups1 lw s2a
                  (le_trans hlenc hlen) hw
              obtain ⟨tups2r, hcr2, hmap2⟩ :=
                ihc s2a pref actives rest es2 tups2c ls2 s3 hlen hc2
              refine ⟨tups1r ++ tups2r, ?_, ?_⟩
              · simp only [fin_children, hcarev, hwr, hcr2]
              · simp only [List.map_append, hmap1, hmap2]

/-- Claim C3 (amended): every directory hash produced by `finalize`
obeys the sorted min/max parent-mixing rule, and permutation invariance
holds for parent lists of at most two trees: swapping the two parents
yields the same tree and the same tuples up to the recorded p1/p2
slots.  With three or more parents, permuting changes which two hashes
are mixed and hence the hashes (see the counterexample). -/
theorem claim_C3_amended :
    (∀ t P fuel tuples t2, finalize t P fuel = Except.ok (tuples, t2) →
      ∀ tu ∈ tuples, tu.node =
        sha1 (hashBytes (min tu.p1 tu.p2) ++ hashBytes (max tu.p1 tu.p2) ++ tu.bytes)) ∧
    (∀ t a b fuel tuples t2, finalize t [a, b] fuel = Except.ok (tuples, t2) →
      ∃ tuples2, finalize t [b, a] fuel = Except.ok (tuples2, t2) ∧
        tuples2.map ftProj = tuples.map ftProj) := by
  constructor
  · intro t P fuel tuples t2 h tu htu
    unfold finalize at h
    cases hw : fin_work t.store fuel [] t.root (P.map (fun p => p.root)) with
    | error e => simp [hw] at h
    | ok r =>
      obtain ⟨n, fl, tups, root2, s2⟩ := r
      simp only [hw, Except.ok.injEq, Prod.mk.injEq] at h
      rw [← h.1] at htu
      exact (fin_tuples_rule fuel).1 t.store [] t.root _ n fl tups root2 s2 hw tu htu
  · intro t a b fuel tuples t2 h
    unfold finalize at h
    simp only [List.map] at h
    cases hw : fin_work t.store fuel [] t.root [a.root, b.root] with
    | error e => simp [hw] at h
    | ok r =>
      obtain ⟨n, fl, tups, root2, s2⟩ := r
      simp only [hw, Except.ok.injEq, Prod.mk.injEq] at h
      obtain ⟨h1, h2⟩ := h
      obtain ⟨tuples2, hwr, hmap⟩ :=
        (fin_swap_all fuel).1 t.store [] t.root [a.root, b.root] n fl tups root2 s2
          (by simp) hw
      refine ⟨tuples2, ?_, by rw [hmap, h1]⟩
      unfold finalize
      have hwr2 : fin_work t.store fuel [] t.root ([b, a].map (fun p => p.root)) =
          Except.ok (n, fl, tuples2, root2, s2) := hwr
      simp only [hwr2]
      rw [h2]

/-- The tuple `finalize` produces for `c3T` with parents `[c3Pa, c3Pb]`. -/
def c3Tu : FTuple :=
  ⟨[], 279782517972694095827324637031729410866609012562,
   entryBytes [⟨[102], 13, Flag.file FileType.regular⟩], 1, 2⟩

/-- The tree `finalize` returns for `c3T` with parents `[c3Pa, c3Pb]`. -/
def c3T1 : Tree :=
  ⟨[], Link.durable 279782517972694095827324637031729410866609012562
    (some [([102], Link.leaf ⟨13, FileType.regular⟩)])⟩

set_option maxRecDepth 100000 in
/-- Witness for the amended C3 on the concrete two-parent scenario. -/
theorem claim_C3_witness :
    (∀ tu ∈ [c3Tu], tu.node =
      sha1 (hashBytes (min tu.p1 tu.p2) ++ hashBytes (max tu.p1 tu.p2) ++ tu.bytes)) ∧
    (∃ tuples2, finalize c3T [c3Pb, c3Pa] 20 = Except.ok (tuples2, c3T1) ∧
      tuples2.map ftProj = [c3Tu].map ftProj) :=
  ⟨claim_C3_amended.1 c3T [c3Pa, c3Pb] 20 [c3Tu] c3T1 (by rfl),
   claim_C3_amended.2 c3T c3Pa c3Pb 20 [c3Tu] c3T1 (by rfl)⟩

end TreeManifest

